import Mathlib

/- Verification development for the manifest reconciliation engine of the
pkg5 package system (modules/manifest.py): a shallow embedding of the
Manifest aggregate, its diff/comm/duplicate operations, the attribute-write
operation, and the raw-text serializer together with the parse path, plus
theorems about the properties stated in the design document.

Python dictionaries and sets are modelled as insertion-ordered association
lists (overwriting an existing key keeps its position; iteration order is
insertion order).  The Python per-instance object identity id(a) is modelled
by an explicit uid field on every action. -/

deriving instance DecidableEq for Except

namespace Pkg5

/-- Failure conditions surfaced by the embedded operations: an action parse
failure, a missing-key lookup in an attribute dictionary, and an invalid
integer literal. -/
inductive Err where
  | parseError
  | keyError
  | valueError
deriving DecidableEq, Repr

/-- Identity-key value of an action: either the value of its key attribute
(a string), or the per-instance unique token (the Python object id) used as
a fallback when the key attribute is absent. -/
inductive KeyVal where
  | attr (v : String)
  | uid (n : Nat)
deriving DecidableEq, Repr

/-- Modelled from the spec: the external Action record (pkg.actions), an
immutable typed attribute record with a category name, an optional key
attribute name, an attribute map (an association list with distinct keys),
and a uid standing for the Python object id. -/
structure Action where
  name : String
  key_attr : Option String
  attrs : List (String × String)
  uid : Nat
deriving DecidableEq, Repr

instance : Inhabited Action := ⟨⟨"", none, [], 0⟩⟩

/-- Lookup in an attribute map: the value of the first binding of the key,
mirroring a Python dictionary lookup. -/
def attrsGet (l : List (String × String)) (k : String) : Option String :=
  (l.find? fun p => decide (p.1 = k)).map fun p => p.2

/-- Value part of the identity key of an action, modelling
a.attrs.get(a.key_attr, id(a)): the value of the key attribute when the
action declares one and carries it, and the per-instance token otherwise. -/
def Action.keyValue (a : Action) : KeyVal :=
  match a.key_attr with
  | none => .uid a.uid
  | some k =>
    match attrsGet a.attrs k with
    | some v => .attr v
    | none => .uid a.uid

/-- Identity key of an action within a manifest: the pair
(a.name, a.attrs.get(a.key_attr, id(a))). -/
def Action.akey (a : Action) : String × KeyVal := (a.name, a.keyValue)

/-- Modelled from the spec: the content-differs predicate of the external
Action abstraction, comparing the attribute content of two actions. -/
def Action.different (a b : Action) : Bool := decide (a.attrs ≠ b.attrs)

/-- Generic Python-style dictionary insertion on an association list: the
first existing binding of the key is overwritten in place, otherwise the new
binding is appended. -/
def dictInsert {κ α : Type} [DecidableEq κ] : List (κ × α) → κ → α → List (κ × α)
  | [], k, v => [(k, v)]
  | p :: d, k, v => if p.1 = k then (k, v) :: d else p :: dictInsert d k v

/-- Dictionary built from a list of bindings, later bindings of the same key
overwriting earlier ones, as in the Python dict(generator) constructor. -/
def dictOfList {κ α : Type} [DecidableEq κ] (l : List (κ × α)) : List (κ × α) :=
  l.foldl (fun d p => dictInsert d p.1 p.2) []

/-- Dictionary lookup. -/
def dictLookup {κ α : Type} [DecidableEq κ] (d : List (κ × α)) (k : κ) : Option α :=
  (d.find? fun p => decide (p.1 = k)).map fun p => p.2

/-- Key list of a dictionary, in insertion order. -/
def dictKeys {κ α : Type} [DecidableEq κ] (d : List (κ × α)) : List κ :=
  d.map fun p => p.1

/-- Value of the last binding of a key in a plain list of bindings; this is
what a Python dict built from the list associates to the key. -/
def lastVal {κ α : Type} [DecidableEq κ] (l : List (κ × α)) (k : κ) : Option α :=
  (l.reverse.find? fun p => decide (p.1 = k)).map fun p => p.2

/-- Set-style insertion into a list representing a Python set (insertion
order retained, duplicates dropped). -/
def setAdd {α : Type} [DecidableEq α] (s : List α) (a : α) : List α :=
  if a ∈ s then s else s ++ [a]

/-- Test that the first character list starts the second. -/
def isPre : List Char → List Char → Bool
  | [], _ => true
  | _ :: _, [] => false
  | a :: as, b :: bs => decide (a = b) && isPre as bs

/-- Lexicographic comparison of character lists by code point, used as the
content tie-break of the action total order and for sort keys. -/
def charListLe : List Char → List Char → Bool
  | [], _ => true
  | _ :: _, [] => false
  | a :: as, b :: bs =>
    if a.toNat < b.toNat then true
    else if b.toNat < a.toNat then false
    else charListLe as bs

/-- Rendering of one attribute binding as a key=value token of the
line-oriented manifest text format. -/
def serAttr (p : String × String) : List Char := p.1.data ++ '=' :: p.2.data

/-- Interleave a separator character between tokens. -/
def sepJoin (c : Char) : List (List Char) → List Char
  | [] => []
  | [t] => t
  | t :: ts => t ++ c :: sepJoin c ts

/-- Rendering of one action as a line of the manifest text format: the
category name followed by the key=value tokens of its attributes, mirroring
the str(action) used by the serializer. -/
def Action.serialize (a : Action) : List Char :=
  sepJoin ' ' (a.name.data :: a.attrs.map serAttr)

/-- Numeric ordering priority per action category, from the ACTION_*
constants of the source module; categories the source lists no constant for
(such as set and license) share a default rank, ordered among themselves by
content.  Modelled from the spec for the name-to-constant association, which
lives in the external action classes. -/
def typeOrd : String → Nat
  | "dir" => 10
  | "file" => 20
  | "link" => 50
  | "hardlink" => 55
  | "device" => 100
  | "user" => 200
  | "group" => 210
  | "service" => 300
  | "restart" => 310
  | "depend" => 400
  | _ => 1000

/-- Modelled from the spec: the total order of the external Action
abstraction, primarily by numeric category priority, ties broken by the
rendered content of the action. -/
def Action.le (a b : Action) : Bool :=
  decide (typeOrd a.name < typeOrd b.name) ||
    (decide (typeOrd a.name = typeOrd b.name) && charListLe a.serialize b.serialize)

/-- Ordering on the value part of identity keys, modelling CPython 2
comparison of the dictionary keys used by the duplicate detector: every
integer token sorts before every string, integers by value, strings
lexicographically. -/
def KeyVal.le : KeyVal → KeyVal → Bool
  | .uid m, .uid n => decide (m ≤ n)
  | .uid _, .attr _ => true
  | .attr _, .uid _ => false
  | .attr s, .attr t => charListLe s.data t.data

/-- Ordering on identity keys (Python tuple comparison of
(name, key value)), the sort key of the duplicate detector. -/
def akLe (x y : String × KeyVal) : Bool :=
  if x.1 = y.1 then KeyVal.le x.2 y.2
  else charListLe x.1.data y.1.data

/-- Manifest aggregate: one package version's ordered action sequence with
its derived indices, as held by the Manifest class.  The img member of the
source (an opaque handle to the owning image, unused by the operations
verified here) is not carried. -/
structure Manifest where
  fmri : Option String
  size : Nat
  actions : List Action
  actions_bytype : List (String × List Action)
  variants : List (String × List String)
  facets : List (String × List String)
  attributes : List (String × String)
deriving DecidableEq, Repr

/-- Freshly constructed manifest, as built by Manifest.__init__. -/
def Manifest.empty : Manifest := ⟨none, 0, [], [], [], [], []⟩

/-- Inclusion test of an action against an exclusion-callable list: the
action is kept when every callable accepts it (a callable returning false
excludes), mirroring include_this and the filter of gen_actions. -/
def includeThis (a : Action) (excludes : List (Action → Bool)) : Bool :=
  excludes.all fun c => c a

/-- Actions of a manifest surviving the exclusion filter, in order
(gen_actions as a list). -/
def Manifest.gen_actions (m : Manifest) (excludes : List (Action → Bool)) : List Action :=
  m.actions.filter fun a => includeThis a excludes

/-- Identity-key dictionary over a list of actions, as built at the top of
difference and comm: later actions with the same key overwrite earlier
ones. -/
def actionDict (as : List Action) : List ((String × KeyVal) × Action) :=
  dictOfList (as.map fun a => (a.akey, a))

/-- Result triple of the diff engine, in the source's return order
(added, changed, removed). -/
structure DiffResult where
  added : List (Option Action × Action)
  changed : List (Action × Action)
  removed : List (Action × Option Action)
deriving DecidableEq, Repr

/-- Diff engine (Manifest.difference): identity-key maps for the destination
(self) and the origin, key-set splits into added, changed and removed pairs,
with license-category keys unconditionally treated as changed; added and
changed sorted ascending by the destination action, removed sorted
descending by the origin action. -/
def Manifest.difference (m origin : Manifest)
    (origin_exclude self_exclude : List (Action → Bool)) : DiffResult :=
  let sdict := actionDict (m.gen_actions self_exclude)
  let odict := actionDict (origin.gen_actions origin_exclude)
  let sset := dictKeys sdict
  let oset := dictKeys odict
  let added := sdict.filterMap fun p =>
    if p.1 ∈ oset then none else some ((none : Option Action), p.2)
  let removed := odict.filterMap fun p =>
    if p.1 ∈ sset then none else some (p.2, (none : Option Action))
  let changed := odict.filterMap fun p =>
    match dictLookup sdict p.1 with
    | none => none
    | some s => if p.2.different s || decide (p.1.1 = "license") then some (p.2, s) else none
  ⟨List.insertionSort (fun x y => Action.le x.2 y.2 = true) added,
   List.insertionSort (fun x y => Action.le x.2 y.2 = true) changed,
   List.insertionSort (fun x y => Action.le y.1 x.1 = true) removed⟩

/-- Comm engine (Manifest.comm): identity-key maps per manifest, candidate
common keys as the intersection of the key sets, a candidate dropped when
any adjacent pair of manifests disagrees on its action content; returns the
per-manifest unique action lists and the common list taken from the first
manifest.  The source assumes at least one input manifest (reduce over the
key sets); for the empty input this model returns empty results. -/
def Manifest.comm (ms : List Manifest) : List (List Action) × List Action :=
  let m_dicts := ms.map fun m => actionDict m.actions
  let m_sets := m_dicts.map dictKeys
  let common0 : List (String × KeyVal) :=
    match m_sets with
    | [] => []
    | s :: rest => rest.foldl (fun acc t => acc.filter fun k => k ∈ t) s
  let adjPairs := m_dicts.zip m_dicts.tail
  let common := common0.filter fun k =>
    !(adjPairs.any fun q =>
        ((dictLookup q.1 k).getD default).different ((dictLookup q.2 k).getD default))
  (m_dicts.map fun d => d.filterMap fun p => if p.1 ∈ common then none else some p.2,
   match m_dicts with
   | [] => []
   | d0 :: _ => common.filterMap fun k => dictLookup d0 k)

/-- Worker of the run grouping: k is the key of the current run, acc the
members of the current run collected so far in reverse; a key change closes
the run. -/
def runsGo (k : String × KeyVal) (acc : List Action) :
    List Action → List ((String × KeyVal) × List Action)
  | [] => [(k, acc.reverse)]
  | a :: rest =>
    if a.akey = k then runsGo k (a :: acc) rest
    else (k, acc.reverse) :: runsGo a.akey [a] rest

/-- Maximal runs of adjacent equal-identity-key actions, modelling
itertools.groupby applied with the identity-key function. -/
def groupRuns : List Action → List ((String × KeyVal) × List Action)
  | [] => []
  | a :: rest => runsGo a.akey [a] rest

/-- Inner loop of the duplicate detector over one group: each adjacent pair
is compared, and both members of a differing pair are added to the conflict
set (modelled as an insertion-ordered duplicate-free list). -/
def dupsAux (dups : List Action) : List Action → List Action
  | a :: b :: rest =>
    dupsAux (if a.different b then setAdd (setAdd dups a) b else dups) (b :: rest)
  | _ => dups

/-- Duplicate detector (Manifest.duplicates): the non-excluded actions are
sorted by identity key (stably), grouped into runs of equal keys, and each
group whose adjacent-pair comparison finds conflicts contributes one
(key, conflict set) entry. -/
def Manifest.duplicates (m : Manifest) (excludes : List (Action → Bool)) :
    List ((String × KeyVal) × List Action) :=
  let acts := m.gen_actions excludes
  (groupRuns (List.insertionSort (fun a b => akLe a.akey b.akey = true) acts)).filterMap fun p =>
    let dups := dupsAux [] p.2
    if dups.isEmpty then none else some (p.1, dups)

/-- Attribute-set action synthesized by the attribute-write operation,
modelling AttributeAction(None, name=key, value=value); the uid argument
stands for the fresh Python object id. -/
def AttributeAction.make (key value : String) (uid : Nat) : Action :=
  { name := "set", key_attr := some "name",
    attrs := [("name", key), ("value", value)], uid := uid }

/-- Scan of the action list performed by the attribute-write operation,
looking for the first attribute-set action for the key; a set action
carrying no name attribute makes the scan fail with a KeyError, as the
source's unguarded a.attrs lookup does. -/
def findSetAction (key : String) : List Action → Except Err (Option Action)
  | [] => .ok none
  | a :: rest =>
    if a.name = "set" then
      match attrsGet a.attrs "name" with
      | none => .error .keyError
      | some n => if n = key then .ok (some a) else findSetAction key rest
    else findSetAction key rest

/-- Attribute-write operation (Manifest.__setitem__): the attributes entry is
set; the first existing attribute-set action for the key, if any, has its
value attribute mutated in place (the mutation reaching every alias of the
object, identified by uid, in the derived index); otherwise a fresh
attribute-set action is synthesized (with uid as its object id) and appended
to the action list. -/
def Manifest.setitem (m : Manifest) (key value : String) (uid : Nat) :
    Except Err Manifest :=
  let attributes := dictInsert m.attributes key value
  match findSetAction key m.actions with
  | .error e => .error e
  | .ok (some a0) =>
    let upd := fun (b : Action) =>
      if b.uid = a0.uid then { b with attrs := dictInsert b.attrs "value" value } else b
    .ok { m with attributes := attributes,
                 actions := m.actions.map upd,
                 actions_bytype := m.actions_bytype.map fun p => (p.1, p.2.map upd) }
  | .ok none =>
    .ok { m with attributes := attributes,
                 actions := m.actions ++ [AttributeAction.make key value uid] }

/-- Lines of the serialized form, each terminated by a newline, concatenated
(the successive "%s\n" appends of the serializer). -/
def joinLines (ls : List (List Char)) : List Char :=
  (ls.map fun l => l ++ ['\n']).flatten

/-- Identity line emitted first by the serializer when the fmri is set. -/
def fmriLine (f : String) : List Char := "set name=fmri value=".data ++ f.data

/-- Raw-text projection (Manifest.tostr_unsorted): the optional identity
line followed by one line per action in insertion order. -/
def Manifest.tostr_unsorted (m : Manifest) : String :=
  String.mk (joinLines
    ((match m.fmri with | none => [] | some f => [fmriLine f]) ++
      m.actions.map Action.serialize))

/-- Worker of the line splitter: acc holds the characters of the current
line in reverse; a newline closes the line, and a trailing newline produces
no final empty line. -/
def splitLinesGo (acc : List Char) : List Char → List (List Char)
  | [] => [acc.reverse]
  | c :: rest =>
    if c = '\n' then
      acc.reverse :: (match rest with | [] => [] | _ :: _ => splitLinesGo [] rest)
    else splitLinesGo (c :: acc) rest

/-- Splitting of a text into lines at newline characters, modelling the
str.splitlines call of the parse path (no trailing empty line for a
newline-terminated text, and no lines at all for the empty text). -/
def splitLinesCh : List Char → List (List Char)
  | [] => []
  | c :: rest => splitLinesGo [] (c :: rest)

/-- Worker of the tokenizer: acc holds the characters of the current token
in reverse; a space closes the token and empty tokens are dropped. -/
def splitTokensGo (acc : List Char) : List Char → List (List Char)
  | [] => if acc.isEmpty then [] else [acc.reverse]
  | c :: rest =>
    if c = ' ' then
      (if acc.isEmpty then [] else [acc.reverse]) ++ splitTokensGo [] rest
    else splitTokensGo (c :: acc) rest

/-- Splitting of a line into tokens at spaces, modelling the tokenization of
the external action grammar (spec: category followed by key=value tokens). -/
def splitTokensCh (cs : List Char) : List (List Char) :=
  splitTokensGo [] cs

/-- Parse of a nonempty all-digit character list as a natural number,
modelling the int() conversion applied to the pkg.size attribute. -/
def parseNatCh (cs : List Char) : Option Nat :=
  if cs.isEmpty then none
  else if cs.all Char.isDigit then
    some (cs.foldl (fun n c => n * 10 + (c.toNat - 48)) 0)
  else none

/-- Parse of one key=value token: the key is the part before the first
equals sign and must be nonempty, the value is the rest. -/
def parseAttrTok (tok : List Char) : Option (String × String) :=
  let k := tok.takeWhile fun c => decide (c ≠ '=')
  match tok.dropWhile fun c => decide (c ≠ '=') with
  | [] => none
  | _ :: v => if k.isEmpty then none else some (String.mk k, String.mk v)

/-- Modelled from the spec: the key attribute declared per category by the
external action classes (for example, path for file system objects and name
for attribute-set actions). -/
def keyAttrTable : String → Option String
  | "file" => some "path"
  | "dir" => some "path"
  | "link" => some "path"
  | "hardlink" => some "path"
  | "license" => some "license"
  | "set" => some "name"
  | "depend" => some "fmri"
  | "user" => some "username"
  | "group" => some "groupname"
  | "driver" => some "name"
  | _ => none

/-- Modelled from the spec: the external line parser actions.fromstr, over
the line-oriented text format (category name followed by key=value tokens);
the uid argument stands for the object id of the freshly built action.
Repeated attribute keys collapse as in a dictionary. -/
def fromstr (uid : Nat) (cs : List Char) : Except Err Action :=
  match splitTokensCh cs with
  | [] => .error .parseError
  | nameTok :: rest =>
    match rest.mapM parseAttrTok with
    | none => .error .parseError
    | some pairs =>
      .ok { name := String.mk nameTok, key_attr := keyAttrTable (String.mk nameTok),
            attrs := dictOfList pairs, uid := uid }

/-- Variant and facet keys of an action.  Modelled from the spec: the
external get_varcet_keys returns the attribute keys that are variant or
facet selectors. -/
def Action.varcetKeys (a : Action) : List String × List String :=
  ((a.attrs.map fun p => p.1).filter fun k => isPre "variant.".data k.data,
   (a.attrs.map fun p => p.1).filter fun k => isPre "facet.".data k.data)

/-- Update of the observed-value map for one selector key, modelling the set
insertion d[v].add(action.attrs[v]). -/
def addVarcet (a : Action) (d : List (String × List String)) (k : String) :
    List (String × List String) :=
  let v := (attrsGet a.attrs k).getD ""
  match dictLookup d k with
  | none => dictInsert d k [v]
  | some vs => dictInsert d k (setAdd vs v)

/-- Legacy-name translation applied by set_content to every parsed action:
on a set action, the name attribute is looked up (failing with a KeyError
when absent, as the source's unguarded a.attrs lookup does) and an authority
name is rewritten to publisher. -/
def authorityFix (a : Action) : Except Err Action :=
  if a.name = "set" then
    match attrsGet a.attrs "name" with
    | none => .error Err.keyError
    | some n =>
      .ok (if n = "authority" then
             { a with attrs := dictInsert a.attrs "name" "publisher" }
           else a)
  else .ok a

/-- Path normalization applied by set_content: leading path separators are
stripped from a path attribute. -/
def stripPath (a : Action) : Action :=
  match attrsGet a.attrs "path" with
  | some p =>
    let np := String.mk (p.data.dropWhile fun ch => decide (ch = '/'))
    { a with attrs := dictInsert a.attrs "path" np }
  | none => a

/-- By-type index update of set_content: the action is appended to the
sublist of its category, a fresh sublist being created for a new category. -/
def addToBytype (bt : List (String × List Action)) (a : Action) :
    List (String × List Action) :=
  match dictLookup bt a.name with
  | none => bt ++ [(a.name, [a])]
  | some l0 => dictInsert bt a.name (l0 ++ [a])

/-- Package-attribute update of set_content: only a set action contributes,
the first occurrence of an attribute name wins, and a set action without a
value attribute contributes nothing (the KeyError is swallowed). -/
def addAttr (attributes : List (String × String)) (a : Action) :
    List (String × String) :=
  if a.name = "set" then
    match attrsGet a.attrs "name" with
    | none => attributes
    | some keyvalue =>
      match attrsGet a.attrs "value" with
      | none => attributes
      | some v =>
        if (attrsGet attributes keyvalue).isSome then attributes
        else dictInsert attributes keyvalue v
  else attributes

/-- Accumulation of one admitted action into the aggregate state of
set_content: size, action list, by-type index, package attributes, and the
variant and facet value sets. -/
def accumulate (m : Manifest) (a : Action) (sz : Nat) : Manifest :=
  { m with
    size := m.size + sz,
    actions := m.actions ++ [a],
    actions_bytype := addToBytype m.actions_bytype a,
    attributes := addAttr m.attributes a,
    variants := a.varcetKeys.1.foldl (addVarcet a) m.variants,
    facets := a.varcetKeys.2.foldl (addVarcet a) m.facets }

/-- Per-line step of the parse loop of set_content: leading whitespace is
stripped, blank and comment lines are skipped; the line is parsed, the
legacy authority attribute name is rewritten, leading path separators are
stripped, the exclusion filter is applied, and the surviving action is
accumulated.  The second state component is the uid counter supplying fresh
object ids. -/
def processLine (excludes : List (Action → Bool)) (st : Manifest × Nat)
    (line : List Char) : Except Err (Manifest × Nat) :=
  let l := line.dropWhile Char.isWhitespace
  match l with
  | [] => .ok st
  | c :: _ =>
    if c = '#' then .ok st
    else
      match fromstr st.2 l with
      | .error e => .error e
      | .ok a0 =>
        match authorityFix a0 with
        | .error e => .error e
        | .ok a1 =>
          let a2 := stripPath a1
          if includeThis a2 excludes then
            match parseNatCh ((attrsGet a2.attrs "pkg.size").getD "0").data with
            | none => .error Err.valueError
            | some sz => .ok (accumulate st.1 a2 sz, st.2 + 1)
          else .ok st

/-- Parse path (Manifest.set_content): all derived state is reset, then the
text is consumed line by line by processLine. -/
def Manifest.set_content (m : Manifest) (content : String)
    (excludes : List (Action → Bool)) : Except Err Manifest :=
  let m0 := { m with
    size := 0, actions := [], actions_bytype := [],
    variants := [], facets := [], attributes := [] }
  ((splitLinesCh content.data).foldlM (processLine excludes) (m0, 0)).map fun p => p.1

/-- Content projection of an action: the category name and the attribute
map, the parts compared by the content-differs predicate (the uid and the
derived key attribute carry no content). -/
def actionContent (a : Action) : String × List (String × String) := (a.name, a.attrs)

/-- Last action of a list holding a given identity key, modelling which
action a Python identity-key dictionary built over the list retains. -/
def lastWithKey (as : List Action) (k : String × KeyVal) : Option Action :=
  as.reverse.find? fun a => decide (a.akey = k)

/-- Modelled from the amended duplicate-detector claim: the members of the
differing adjacent pairs of one group, each differing pair contributing both
of its members, in encounter order without repetition. -/
def adjDiffMembers (g : List Action) : List Action :=
  (g.zip g.tail).foldl
    (fun s q => if q.1.different q.2 then setAdd (setAdd s q.1) q.2 else s) []

/-- Sorted snapshot of the non-excluded actions of a manifest by identity
key, the list the duplicate detector groups. -/
def Manifest.dupSorted (m : Manifest) (excludes : List (Action → Bool)) : List Action :=
  List.insertionSort (fun a b => akLe a.akey b.akey = true) (m.gen_actions excludes)

/-- Character lists free of whitespace. -/
def cleanChars (cs : List Char) : Bool := cs.all fun c => !c.isWhitespace

/-- Well-formedness of one attribute binding for the serializer round trip:
nonempty key without whitespace or equals signs, value without whitespace. -/
def wfAttr (p : String × String) : Bool :=
  !p.1.data.isEmpty && cleanChars p.1.data &&
    (p.1.data.all fun c => decide (c ≠ '=')) && cleanChars p.2.data

/-- Parse-normalized action: one whose serialized line survives the parse
path unchanged.  The name is nonempty, whitespace-free and not a comment
start; every attribute binding is well formed and the attribute keys are
distinct; a pkg.size attribute is numeric; a set action carries a name
attribute other than the legacy authority name; a path attribute carries no
leading path separator. -/
def Action.wf (a : Action) : Bool :=
  !a.name.data.isEmpty && cleanChars a.name.data &&
    decide (a.name.data.head? ≠ some '#') &&
    a.attrs.all wfAttr &&
    decide ((a.attrs.map fun p => p.1).Nodup) &&
    (match attrsGet a.attrs "pkg.size" with
     | none => true
     | some s => (parseNatCh s.data).isSome) &&
    (match attrsGet a.attrs "path" with
     | none => true
     | some p => decide (p.data.head? ≠ some '/')) &&
    (if a.name = "set" then
       match attrsGet a.attrs "name" with
       | none => false
       | some n => decide (n ≠ "authority")
     else true)

/- Concrete inputs exercised by the witnesses and counterexamples below. -/

/-- Concrete file action. -/
def aFileW : Action := ⟨"file", some "path", [("path", "usr/bin/foo"), ("pkg.size", "100")], 1⟩

/-- Concrete directory action. -/
def aDirW : Action := ⟨"dir", some "path", [("path", "usr")], 2⟩

/-- Concrete license action of the destination manifest. -/
def aLicD : Action := ⟨"license", some "license", [("license", "cddl")], 3⟩

/-- Concrete license action of the origin manifest, byte-identical in
content to the destination one. -/
def aLicO : Action := ⟨"license", some "license", [("license", "cddl")], 4⟩

/-- Concrete action without a key attribute. -/
def aNoKey : Action := ⟨"legacy", none, [("pkg", "SUNWfoo")], 5⟩

/-- Concrete origin action content-equal to the unkeyed one. -/
def aNoKeyO : Action := ⟨"legacy", none, [("pkg", "SUNWfoo")], 6⟩

/-- Manifest with a license action, the self-diff counterexample. -/
def mLic : Manifest := { Manifest.empty with actions := [aFileW, aLicD] }

/-- Manifest without license actions. -/
def mPlain : Manifest := { Manifest.empty with actions := [aFileW, aDirW] }

/-- Destination manifest for the license-changed and unkeyed witnesses. -/
def mDstW : Manifest := { Manifest.empty with actions := [aLicD, aNoKey] }

/-- Origin manifest for the license-changed and unkeyed witnesses. -/
def mOrgW : Manifest := { Manifest.empty with actions := [aLicO, aNoKeyO] }

/-- First of three same-key file actions (content-equal to the second). -/
def dupX : Action := ⟨"file", some "path", [("path", "p")], 10⟩

/-- Second of three same-key file actions. -/
def dupY : Action := ⟨"file", some "path", [("path", "p")], 11⟩

/-- Third same-key file action, with differing content. -/
def dupZ : Action := ⟨"file", some "path", [("path", "p"), ("mode", "0644")], 12⟩

/-- Manifest with a three-action same-key group, the duplicate-detector
counterexample. -/
def mDup : Manifest := { Manifest.empty with actions := [dupX, dupY, dupZ] }

/-- Manifest with two internally duplicate identity keys, the comm
counterexample. -/
def mDupKeys : Manifest := { Manifest.empty with actions := [dupX, dupZ] }

/-- Manifest with identity keys disjoint from mPlain, for the comm
witness. -/
def mOther : Manifest :=
  { Manifest.empty with actions := [⟨"file", some "path", [("path", "usr/bin/bar")], 20⟩] }

/-- Manifest whose fmri is set, the round-trip counterexample. -/
def mFmri : Manifest := { Manifest.empty with fmri := some "pkg:/foo@1.0" }

/-- Manifest of parse-normalized actions for the round-trip witness. -/
def mRound : Manifest := { Manifest.empty with actions := [aDirW, aFileW] }

/- Order lemmas. -/

theorem charListLe_total : ∀ x y : List Char, (charListLe x y || charListLe y x) = true := by
  intro x
  induction x with
  | nil => intro y; simp [charListLe]
  | cons a as ih =>
    intro y
    cases y with
    | nil => simp [charListLe]
    | cons b bs =>
      simp only [charListLe]
      rcases Nat.lt_trichotomy a.toNat b.toNat with h | h | h
      · simp [h]
      · simp [h, Nat.lt_irrefl, ih bs]
      · simp [h, Nat.lt_asymm h]

theorem charListLe_trans : ∀ x y z : List Char,
    charListLe x y = true → charListLe y z = true → charListLe x z = true := by
  intro x
  induction x with
  | nil => intro y z _ _; simp [charListLe]
  | cons a as ih =>
    intro y z hxy hyz
    cases y with
    | nil => simp [charListLe] at hxy
    | cons b bs =>
      cases z with
      | nil => simp [charListLe] at hyz
      | cons c cs =>
        simp only [charListLe] at hxy hyz ⊢
        by_cases h1 : a.toNat < b.toNat <;> by_cases h2 : b.toNat < c.toNat <;>
          by_cases h3 : b.toNat < a.toNat <;> by_cases h4 : c.toNat < b.toNat <;>
          simp [h1, h2, h3, h4] at hxy hyz ⊢ <;>
          first
          | omega
          | exact Or.inl (by omega)
          | exact Or.inr ⟨by omega, ih bs cs hxy hyz⟩

theorem charListLe_antisymm : ∀ x y : List Char,
    charListLe x y = true → charListLe y x = true → x = y := by
  intro x
  induction x with
  | nil =>
    intro y _ hyx
    cases y with
    | nil => rfl
    | cons b bs => simp [charListLe] at hyx
  | cons a as ih =>
    intro y hxy hyx
    cases y with
    | nil => simp [charListLe] at hxy
    | cons b bs =>
      simp only [charListLe] at hxy hyx
      by_cases h1 : a.toNat < b.toNat
      · simp [h1, Nat.lt_asymm h1] at hyx
      · by_cases h2 : b.toNat < a.toNat
        · simp [h1, h2] at hxy
        · simp [h1, h2] at hxy hyx
          have hab : a = b := Char.eq_of_val_eq (UInt32.ext (Nat.le_antisymm
            (Nat.le_of_not_lt h2) (Nat.le_of_not_lt h1)))
          rw [hab, ih bs hxy hyx]

theorem strDataEq {s t : String} (h : s.data = t.data) : s = t := by
  cases s
  cases t
  exact congrArg String.mk h

theorem actionLe_total (a b : Action) : (Action.le a b || Action.le b a) = true := by
  simp only [Action.le]
  rcases Nat.lt_trichotomy (typeOrd a.name) (typeOrd b.name) with h | h | h
  · simp [h]
  · have ht := charListLe_total a.serialize b.serialize
    simp only [Bool.or_eq_true] at ht ⊢
    simp only [h, Nat.lt_irrefl, decide_eq_true_eq, Bool.and_eq_true]
    rcases ht with h1 | h1
    · exact Or.inl (Or.inr ⟨trivial, h1⟩)
    · exact Or.inr (Or.inr ⟨trivial, h1⟩)
  · simp [h, Nat.lt_asymm h]

theorem actionLe_trans (a b c : Action) :
    Action.le a b = true → Action.le b c = true → Action.le a c = true := by
  simp only [Action.le, Bool.or_eq_true, Bool.and_eq_true, decide_eq_true_eq]
  intro hab hbc
  rcases hab with h1 | ⟨h1, h1c⟩ <;> rcases hbc with h2 | ⟨h2, h2c⟩
  · exact Or.inl (Nat.lt_trans h1 h2)
  · exact Or.inl (h2 ▸ h1)
  · exact Or.inl (h1 ▸ h2)
  · exact Or.inr ⟨h1.trans h2, charListLe_trans _ _ _ h1c h2c⟩

theorem keyValLe_total (u v : KeyVal) : (KeyVal.le u v || KeyVal.le v u) = true := by
  cases u with
  | attr s =>
    cases v with
    | attr t => simpa [KeyVal.le] using charListLe_total s.data t.data
    | uid n => simp [KeyVal.le]
  | uid m =>
    cases v with
    | attr t => simp [KeyVal.le]
    | uid n => simp [KeyVal.le]; omega

theorem keyValLe_trans (u v w : KeyVal) :
    KeyVal.le u v = true → KeyVal.le v w = true → KeyVal.le u w = true := by
  cases u <;> cases v <;> cases w <;> simp [KeyVal.le] <;>
    first
    | omega
    | exact fun h1 h2 => charListLe_trans _ _ _ h1 h2

theorem keyValLe_antisymm (u v : KeyVal) :
    KeyVal.le u v = true → KeyVal.le v u = true → u = v := by
  cases u with
  | attr s =>
    cases v with
    | attr t =>
      intro h1 h2
      simp only [KeyVal.le] at h1 h2
      exact congrArg KeyVal.attr (strDataEq (charListLe_antisymm _ _ h1 h2))
    | uid n => intro h1 _; simp [KeyVal.le] at h1
  | uid m =>
    cases v with
    | attr t => intro _ h2; simp [KeyVal.le] at h2
    | uid n =>
      intro h1 h2
      simp only [KeyVal.le, decide_eq_true_eq] at h1 h2
      exact congrArg KeyVal.uid (Nat.le_antisymm h1 h2)

theorem akLe_total (x y : String × KeyVal) : (akLe x y || akLe y x) = true := by
  simp only [akLe]
  by_cases h : x.1 = y.1
  · have h2 : y.1 = x.1 := h.symm
    simp only [if_pos h, if_pos h2]
    exact keyValLe_total _ _
  · have h2 : ¬ y.1 = x.1 := fun e => h e.symm
    simp only [if_neg h, if_neg h2]
    exact charListLe_total _ _

theorem akLe_trans (x y z : String × KeyVal) :
    akLe x y = true → akLe y z = true → akLe x z = true := by
  simp only [akLe]
  by_cases h1 : x.1 = y.1 <;> by_cases h2 : y.1 = z.1
  · have h3 : x.1 = z.1 := h1.trans h2
    simp only [if_pos h1, if_pos h2, if_pos h3]
    exact keyValLe_trans _ _ _
  · have h3 : ¬ x.1 = z.1 := fun e => h2 (h1 ▸ e)
    simp only [if_pos h1, if_neg h2, if_neg h3, h1]
    exact fun _ hc => hc
  · have h3 : ¬ x.1 = z.1 := fun e => h1 (e.trans h2.symm)
    simp only [if_neg h1, if_pos h2, if_neg h3, h2]
    exact fun hc _ => hc
  · intro hxy hyz
    rw [if_neg h1] at hxy
    rw [if_neg h2] at hyz
    by_cases h3 : x.1 = z.1
    · exfalso
      apply h1
      apply strDataEq
      exact charListLe_antisymm _ _ hxy (h3 ▸ hyz)
    · rw [if_neg h3]
      exact charListLe_trans _ _ _ hxy hyz

theorem akLe_antisymm (x y : String × KeyVal) :
    akLe x y = true → akLe y x = true → x = y := by
  simp only [akLe]
  by_cases h : x.1 = y.1
  · have h2 : y.1 = x.1 := h.symm
    rw [if_pos h, if_pos h2]
    intro h3 h4
    exact Prod.ext h (keyValLe_antisymm _ _ h3 h4)
  · have h2 : ¬ y.1 = x.1 := fun e => h e.symm
    rw [if_neg h, if_neg h2]
    intro h3 h4
    exact absurd (strDataEq (charListLe_antisymm _ _ h3 h4)) h

theorem dictLookup_nil {κ α : Type} [DecidableEq κ] (k : κ) :
    dictLookup ([] : List (κ × α)) k = none := rfl

theorem dictLookup_cons {κ α : Type} [DecidableEq κ] (p : κ × α) (d : List (κ × α)) (k : κ) :
    dictLookup (p :: d) k = if p.1 = k then some p.2 else dictLookup d k := by
  by_cases h : p.1 = k
  · simp [dictLookup, List.find?_cons, h]
  · simp [dictLookup, List.find?_cons, h]

theorem dictLookup_dictInsert {κ α : Type} [DecidableEq κ]
    (d : List (κ × α)) (k : κ) (v : α) (k2 : κ) :
    dictLookup (dictInsert d k v) k2 = if k2 = k then some v else dictLookup d k2 := by
  induction d with
  | nil =>
    simp only [dictInsert, dictLookup_cons, dictLookup_nil]
    by_cases h : k2 = k
    · simp [h]
    · rw [if_neg (fun e => h e.symm), if_neg h]
  | cons p d ih =>
    simp only [dictInsert]
    by_cases hp : p.1 = k
    · rw [if_pos hp, dictLookup_cons, dictLookup_cons]
      by_cases h2 : k2 = k
      · rw [if_pos (show k = k2 from h2.symm), if_pos h2]
      · rw [if_neg (show ¬ k = k2 from fun e => h2 e.symm), if_neg h2,
          if_neg (show ¬ p.1 = k2 from fun e => h2 (e ▸ hp.symm ▸ rfl))]
    · rw [if_neg hp, dictLookup_cons, dictLookup_cons, ih]
      by_cases h2 : k2 = k
      · rw [if_pos h2, if_pos h2, if_neg (show ¬ p.1 = k2 from fun e => hp (e.trans h2))]
      · rw [if_neg h2, if_neg h2]

theorem mem_dictInsert {κ α : Type} [DecidableEq κ] {q : κ × α} :
    ∀ {d : List (κ × α)} {k : κ} {v : α}, q ∈ dictInsert d k v → q ∈ d ∨ q = (k, v) := by
  intro d
  induction d with
  | nil => intro k v h; simp [dictInsert] at h; exact Or.inr h
  | cons p d ih =>
    intro k v h
    simp only [dictInsert] at h
    by_cases hp : p.1 = k
    · rw [if_pos hp] at h
      rcases List.mem_cons.mp h with h | h
      · exact Or.inr h
      · exact Or.inl (List.mem_cons_of_mem _ h)
    · rw [if_neg hp] at h
      rcases List.mem_cons.mp h with h | h
      · exact Or.inl (h ▸ List.mem_cons_self _ _)
      · rcases ih h with h | h
        · exact Or.inl (List.mem_cons_of_mem _ h)
        · exact Or.inr h

theorem dictKeys_dictInsert {κ α : Type} [DecidableEq κ] (d : List (κ × α)) (k : κ) (v : α) :
    dictKeys (dictInsert d k v) =
      if k ∈ dictKeys d then dictKeys d else dictKeys d ++ [k] := by
  induction d with
  | nil => simp [dictInsert, dictKeys]
  | cons p d ih =>
    by_cases hp : p.1 = k
    · have hmem : k ∈ dictKeys (p :: d) := by
        simp [dictKeys, List.mem_cons]
        exact Or.inl hp.symm
      rw [show dictInsert (p :: d) k v = (k, v) :: d by simp [dictInsert, hp], if_pos hmem]
      simp [dictKeys, hp]
    · have hne : ¬ k = p.1 := fun e => hp e.symm
      rw [show dictInsert (p :: d) k v = p :: dictInsert d k v by simp [dictInsert, hp]]
      rw [show dictKeys (p :: dictInsert d k v) = p.1 :: dictKeys (dictInsert d k v) from rfl,
        ih]
      by_cases h2 : k ∈ dictKeys d
      · rw [if_pos h2, if_pos (show k ∈ dictKeys (p :: d) from List.mem_cons_of_mem _ h2)]
        rfl
      · rw [if_neg h2, if_neg (show k ∉ dictKeys (p :: d) by
          intro hm
          rcases List.mem_cons.mp (show k ∈ p.1 :: dictKeys d from hm) with h | h
          · exact hne h
          · exact h2 h)]
        rfl

theorem dictKeys_dictInsert_nodup {κ α : Type} [DecidableEq κ]
    {d : List (κ × α)} (h : (dictKeys d).Nodup) (k : κ) (v : α) :
    (dictKeys (dictInsert d k v)).Nodup := by
  rw [dictKeys_dictInsert]
  by_cases hm : k ∈ dictKeys d
  · rwa [if_pos hm]
  · rw [if_neg hm]
    simp [List.nodup_append, h, hm]

theorem optionMapOr {α β : Type} (x y : Option α) (f : α → β) :
    (x.or y).map f = (x.map f).or (y.map f) := by
  cases x <;> rfl

theorem lastVal_nil {κ α : Type} [DecidableEq κ] (k : κ) :
    lastVal ([] : List (κ × α)) k = none := rfl

theorem lastVal_cons {κ α : Type} [DecidableEq κ] (p : κ × α) (l : List (κ × α)) (k : κ) :
    lastVal (p :: l) k = (lastVal l k).or (if p.1 = k then some p.2 else none) := by
  simp only [lastVal, List.reverse_cons, List.find?_append, optionMapOr]
  congr 1
  by_cases h : p.1 = k <;> simp [List.find?_cons, h]

theorem foldlInsertLookup {κ α : Type} [DecidableEq κ] :
    ∀ (l d : List (κ × α)) (k : κ),
      dictLookup (l.foldl (fun d p => dictInsert d p.1 p.2) d) k
        = (lastVal l k).or (dictLookup d k) := by
  intro l
  induction l with
  | nil => intro d k; simp [lastVal_nil]
  | cons p l ih =>
    intro d k
    simp only [List.foldl_cons]
    rw [ih, lastVal_cons, Option.or_assoc]
    congr 1
    rw [dictLookup_dictInsert]
    by_cases h : k = p.1
    · rw [if_pos h, if_pos h.symm]
      rfl
    · rw [if_neg h, if_neg (fun e => h e.symm)]
      rfl

theorem dictLookup_dictOfList {κ α : Type} [DecidableEq κ] (l : List (κ × α)) (k : κ) :
    dictLookup (dictOfList l) k = lastVal l k := by
  have h := foldlInsertLookup l [] k
  rw [dictLookup_nil] at h
  simpa [dictOfList] using h

theorem mem_foldl_dictInsert {κ α : Type} [DecidableEq κ] {q : κ × α} :
    ∀ (l d : List (κ × α)),
      q ∈ l.foldl (fun d p => dictInsert d p.1 p.2) d → q ∈ d ∨ q ∈ l := by
  intro l
  induction l with
  | nil => intro d h; exact Or.inl h
  | cons p l ih =>
    intro d h
    simp only [List.foldl_cons] at h
    rcases ih _ h with h | h
    · rcases mem_dictInsert h with h | h
      · exact Or.inl h
      · refine Or.inr ?_
        rw [h]
        simp
    · exact Or.inr (List.mem_cons_of_mem _ h)

theorem mem_dictOfList {κ α : Type} [DecidableEq κ] {q : κ × α} {l : List (κ × α)}
    (h : q ∈ dictOfList l) : q ∈ l := by
  rcases mem_foldl_dictInsert l [] h with h | h
  · cases h
  · exact h

theorem dictKeys_dictOfList_nodup {κ α : Type} [DecidableEq κ] (l : List (κ × α)) :
    (dictKeys (dictOfList l)).Nodup := by
  have main : ∀ (l d : List (κ × α)), (dictKeys d).Nodup →
      (dictKeys (l.foldl (fun d p => dictInsert d p.1 p.2) d)).Nodup := by
    intro l
    induction l with
    | nil => intro d h; exact h
    | cons p l ih =>
      intro d h
      simp only [List.foldl_cons]
      exact ih _ (dictKeys_dictInsert_nodup h _ _)
  exact main l [] List.nodup_nil

theorem dictLookup_eq_of_mem {κ α : Type} [DecidableEq κ] :
    ∀ {d : List (κ × α)} {k : κ} {v : α},
      (dictKeys d).Nodup → (k, v) ∈ d → dictLookup d k = some v := by
  intro d
  induction d with
  | nil => intro k v _ h; cases h
  | cons p d ih =>
    intro k v hnd hm
    rw [dictLookup_cons]
    rcases List.mem_cons.mp hm with h | h
    · rw [← h]
      simp
    · have hk : k ∈ dictKeys d := by
        simp only [dictKeys, List.mem_map]
        exact ⟨(k, v), h, rfl⟩
      have hcons := List.nodup_cons.mp (show (p.1 :: dictKeys d).Nodup from hnd)
      have hp : ¬ p.1 = k := fun e => hcons.1 (e ▸ hk)
      rw [if_neg hp]
      exact ih hcons.2 h

theorem dictLookup_isSome_iff {κ α : Type} [DecidableEq κ] (d : List (κ × α)) (k : κ) :
    (dictLookup d k).isSome = true ↔ k ∈ dictKeys d := by
  induction d with
  | nil => simp [dictLookup_nil, dictKeys]
  | cons p d ih =>
    rw [dictLookup_cons]
    by_cases h : p.1 = k
    · simp [h, dictKeys]
    · simp only [if_neg h, ih, dictKeys, List.map_cons, List.mem_cons]
      constructor
      · exact fun hm => Or.inr (by simpa [dictKeys] using hm)
      · intro hm
        rcases hm with hm | hm
        · exact absurd hm.symm h
        · simpa [dictKeys] using hm

theorem dictInsert_of_notMem {κ α : Type} [DecidableEq κ] :
    ∀ {d : List (κ × α)} {k : κ}, k ∉ dictKeys d → ∀ (v : α),
      dictInsert d k v = d ++ [(k, v)] := by
  intro d
  induction d with
  | nil => intro k _ v; rfl
  | cons p d ih =>
    intro k hk v
    have hp : ¬ p.1 = k := by
      intro e
      exact hk (by simp [dictKeys, e])
    simp only [dictInsert, if_neg hp, List.cons_append]
    rw [ih (fun hm => hk (by simp [dictKeys] at hm ⊢; exact Or.inr hm)) v]

theorem dictOfList_eq_self {κ α : Type} [DecidableEq κ] {l : List (κ × α)}
    (h : (l.map fun p => p.1).Nodup) : dictOfList l = l := by
  have main : ∀ (l d : List (κ × α)), (dictKeys (d ++ l)).Nodup →
      l.foldl (fun d p => dictInsert d p.1 p.2) d = d ++ l := by
    intro l
    induction l with
    | nil => intro d _; simp
    | cons p l ih =>
      intro d hnd
      simp only [List.foldl_cons]
      have hkeys : dictKeys (d ++ p :: l) = dictKeys d ++ p.1 :: dictKeys l := by
        simp [dictKeys]
      have hp : p.1 ∉ dictKeys d := by
        rw [hkeys] at hnd
        intro hm
        rcases (List.nodup_append.mp hnd) with ⟨_, _, hdisj⟩
        exact hdisj hm (List.mem_cons_self _ _)
      rw [dictInsert_of_notMem hp]
      have he : d ++ [(p.1, p.2)] = d ++ [p] := by simp
      rw [he]
      have hassoc : (d ++ [p]) ++ l = d ++ p :: l := by simp
      have := ih (d ++ [p]) (by rw [hassoc]; exact hnd)
      rw [hassoc] at this
      exact this
  have := main l [] (by simpa [dictKeys] using h)
  simpa [dictOfList] using this

theorem actionDict_lookup (as : List Action) (k : String × KeyVal) :
    dictLookup (actionDict as) k = lastWithKey as k := by
  rw [actionDict, dictLookup_dictOfList]
  simp only [lastVal, lastWithKey, ← List.map_reverse, List.find?_map]
  cases h : as.reverse.find? fun a => decide (a.akey = k) with
  | none =>
    have : (as.reverse.find? ((fun p => decide (p.1 = k)) ∘ fun a => (a.akey, a))) = none := h
    rw [this]
    rfl
  | some a =>
    have : (as.reverse.find? ((fun p => decide (p.1 = k)) ∘ fun a => (a.akey, a))) = some a := h
    rw [this]
    rfl

theorem mem_actionDict {as : List Action} {k : String × KeyVal} {a : Action}
    (h : (k, a) ∈ actionDict as) : a ∈ as ∧ k = a.akey := by
  have hm := mem_dictOfList h
  simp only [List.mem_map] at hm
  rcases hm with ⟨x, hx, he⟩
  have h1 : x.akey = k := congrArg Prod.fst he
  have h2 : x = a := congrArg Prod.snd he
  exact ⟨h2 ▸ hx, (h2 ▸ h1).symm⟩

theorem actionDict_keys_mem_iff (as : List Action) (k : String × KeyVal) :
    k ∈ dictKeys (actionDict as) ↔ ∃ a ∈ as, a.akey = k := by
  rw [← dictLookup_isSome_iff, actionDict_lookup]
  simp only [lastWithKey, List.find?_isSome, List.mem_reverse, decide_eq_true_eq]

theorem lastWithKey_mem {as : List Action} {k : String × KeyVal} {a : Action}
    (h : lastWithKey as k = some a) : a ∈ as ∧ a.akey = k := by
  have h1 := List.mem_of_find?_eq_some h
  have h2 := List.find?_some h
  simp only [decide_eq_true_eq] at h2
  exact ⟨List.mem_reverse.mp h1, h2⟩

theorem lastWithKey_unique {as : List Action} {k : String × KeyVal} {a : Action}
    (ha : a ∈ as) (hk : a.akey = k) (huniq : ∀ b ∈ as, b.akey = k → b = a) :
    lastWithKey as k = some a := by
  cases h : lastWithKey as k with
  | none =>
    exfalso
    have := List.find?_eq_none.mp h a (List.mem_reverse.mpr ha)
    simp [hk] at this
  | some x =>
    have hx := lastWithKey_mem h
    rw [huniq x hx.1 hx.2]

theorem gen_actions_nil (m : Manifest) : m.gen_actions [] = m.actions := by
  simp [Manifest.gen_actions, includeThis]

theorem filterMap_if_mem_nil {β : Type} (d : List ((String × KeyVal) × Action))
    (g : (String × KeyVal) × Action → β) :
    (d.filterMap fun p => if p.1 ∈ dictKeys d then none else some (g p)) = [] := by
  rw [List.filterMap_eq_nil_iff]
  intro p hp
  have hm : p.1 ∈ dictKeys d := List.mem_map_of_mem (fun q => q.1) hp
  rw [if_pos hm]

theorem changed_self_nil (as : List Action) (h : ∀ a ∈ as, a.name ≠ "license") :
    ((actionDict as).filterMap fun p =>
      match dictLookup (actionDict as) p.1 with
      | none => none
      | some s =>
        if p.2.different s || decide (p.1.1 = "license") then some (p.2, s) else none) = [] := by
  rw [List.filterMap_eq_nil_iff]
  intro p hp
  have hnd : (dictKeys (actionDict as)).Nodup := by
    rw [actionDict]
    exact dictKeys_dictOfList_nodup _
  have hl : dictLookup (actionDict as) p.1 = some p.2 :=
    dictLookup_eq_of_mem hnd hp
  rw [hl]
  have hma := mem_actionDict (show (p.1, p.2) ∈ actionDict as from hp)
  have hdiff : p.2.different p.2 = false := by simp [Action.different]
  have hlic : ¬ p.1.1 = "license" := by
    rcases hma with ⟨hmem, hk⟩
    rw [hk]
    exact h _ hmem
  simp [hdiff, hlic]

/-- C1 (amended): the self-diff of any manifest with empty exclusion lists
has empty added and removed lists, and its changed list is also empty
provided the manifest contains no license-category actions (each license
action is otherwise unconditionally reported as changed). -/
theorem diff_self_empty (m : Manifest) :
    (m.difference m [] []).added = [] ∧ (m.difference m [] []).removed = [] ∧
      ((∀ a ∈ m.actions, a.name ≠ "license") → (m.difference m [] []).changed = []) := by
  refine ⟨?_, ?_, fun h => ?_⟩
  · simp only [Manifest.difference]
    rw [filterMap_if_mem_nil (actionDict (m.gen_actions []))
      (fun p => ((none : Option Action), p.2))]
    simp
  · simp only [Manifest.difference]
    rw [filterMap_if_mem_nil (actionDict (m.gen_actions []))
      (fun p => (p.2, (none : Option Action)))]
    simp
  · simp only [Manifest.difference]
    rw [changed_self_nil (m.gen_actions []) (by rw [gen_actions_nil]; exact h)]
    simp

/-- C1 counterexample: a manifest holding a license action self-diffs to a
nonempty changed list (the license pair appears, paired with itself), so the
claim as stated fails on manifests with license-category actions. -/
theorem diff_self_license_cex :
    (mLic.difference mLic [] []).changed = [(aLicD, aLicD)] ∧
      (mLic.difference mLic [] []).changed ≠ [] := by
  constructor
  · decide
  · decide

/-- C1 witness: the amended self-diff theorem applied to a concrete
license-free manifest. -/
theorem diff_self_empty_witness :
    (∀ a ∈ mPlain.actions, a.name ≠ "license") ∧
      (mPlain.difference mPlain [] []).added = [] ∧
      (mPlain.difference mPlain [] []).removed = [] ∧
      (mPlain.difference mPlain [] []).changed = [] :=
  ⟨by decide, (diff_self_empty mPlain).1, (diff_self_empty mPlain).2.1,
    (diff_self_empty mPlain).2.2 (by decide)⟩

theorem dictLookup_mem {κ α : Type} [DecidableEq κ] {d : List (κ × α)} {k : κ} {v : α}
    (h : dictLookup d k = some v) : (k, v) ∈ d := by
  cases hf : d.find? fun p => decide (p.1 = k) with
  | none =>
    rw [dictLookup, hf] at h
    simp at h
  | some q =>
    have hq := List.mem_of_find?_eq_some hf
    have hqk := List.find?_some hf
    simp only [decide_eq_true_eq] at hqk
    have hv : q.2 = v := by
      rw [dictLookup, hf] at h
      simpa using h
    have he : q = (k, v) := Prod.ext hqk hv
    rwa [he] at hq

/-- C2: a license-category identity key present in both the origin and the
destination maps always contributes its pair of actions to the changed list,
whatever the content-differs predicate says about the pair. -/
theorem license_always_changed (dst org : Manifest) (oe de : List (Action → Bool))
    (k : String × KeyVal) (a b : Action)
    (ha : lastWithKey (dst.gen_actions de) k = some a)
    (hb : lastWithKey (org.gen_actions oe) k = some b)
    (hlic : k.1 = "license") :
    (b, a) ∈ (dst.difference org oe de).changed := by
  simp only [Manifest.difference]
  apply (List.Perm.mem_iff (List.perm_insertionSort _ _)).mpr
  apply List.mem_filterMap.mpr
  have hbmem : (k, b) ∈ actionDict (org.gen_actions oe) :=
    dictLookup_mem (by rw [actionDict_lookup]; exact hb)
  refine ⟨(k, b), hbmem, ?_⟩
  have hsa : dictLookup (actionDict (dst.gen_actions de)) k = some a := by
    rw [actionDict_lookup]; exact ha
  simp [hsa, hlic]

/-- C2 witness: a license action with byte-identical content on both sides
of a concrete diff still lands in the changed list. -/
theorem license_always_changed_witness :
    lastWithKey (mDstW.gen_actions []) ("license", KeyVal.attr "cddl") = some aLicD ∧
      lastWithKey (mOrgW.gen_actions []) ("license", KeyVal.attr "cddl") = some aLicO ∧
      aLicO.different aLicD = false ∧
      (aLicO, aLicD) ∈ (mDstW.difference mOrgW [] []).changed :=
  ⟨by decide, by decide, by decide,
    license_always_changed mDstW mOrgW [] [] ("license", KeyVal.attr "cddl") aLicD aLicO
      (by decide) (by decide) rfl⟩

/-- C3: in every diff result, the added and changed lists are ascending by
the destination action's total order, and the removed list is descending by
the origin action's total order. -/
theorem diff_sorted (dst org : Manifest) (oe de : List (Action → Bool)) :
    ((dst.difference org oe de).added.Pairwise fun x y => Action.le x.2 y.2 = true) ∧
      ((dst.difference org oe de).changed.Pairwise fun x y => Action.le x.2 y.2 = true) ∧
      ((dst.difference org oe de).removed.Pairwise fun x y => Action.le y.1 x.1 = true) := by
  haveI h1 : IsTotal (Option Action × Action) fun x y => Action.le x.2 y.2 = true :=
    ⟨fun x y => by simpa using actionLe_total x.2 y.2⟩
  haveI h2 : IsTrans (Option Action × Action) fun x y => Action.le x.2 y.2 = true :=
    ⟨fun x y z => actionLe_trans x.2 y.2 z.2⟩
  haveI h3 : IsTotal (Action × Action) fun x y => Action.le x.2 y.2 = true :=
    ⟨fun x y => by simpa using actionLe_total x.2 y.2⟩
  haveI h4 : IsTrans (Action × Action) fun x y => Action.le x.2 y.2 = true :=
    ⟨fun x y z => actionLe_trans x.2 y.2 z.2⟩
  haveI h5 : IsTotal (Action × Option Action) fun x y => Action.le y.1 x.1 = true :=
    ⟨fun x y => by simpa using actionLe_total y.1 x.1⟩
  haveI h6 : IsTrans (Action × Option Action) fun x y => Action.le y.1 x.1 = true :=
    ⟨fun x y z hxy hyz => actionLe_trans z.1 y.1 x.1 hyz hxy⟩
  refine ⟨?_, ?_, ?_⟩ <;> simp only [Manifest.difference] <;>
    exact List.sorted_insertionSort _ _

theorem keyValue_uid {a : Action} {n : Nat} (h : a.keyValue = KeyVal.uid n) : n = a.uid := by
  cases hk : a.key_attr with
  | none =>
    simp only [Action.keyValue, hk] at h
    exact (KeyVal.uid.injEq _ _ ▸ h).symm
  | some k =>
    simp only [Action.keyValue, hk] at h
    cases hv : attrsGet a.attrs k with
    | none =>
      rw [hv] at h
      exact (KeyVal.uid.injEq _ _ ▸ h).symm
    | some v =>
      rw [hv] at h
      cases h

theorem gen_actions_subset (m : Manifest) (ex : List (Action → Bool)) :
    m.gen_actions ex ⊆ m.actions := by
  intro a h
  exact (List.mem_filter.mp h).1

theorem mem_gen_actions {m : Manifest} {ex : List (Action → Bool)} {a : Action} :
    a ∈ m.gen_actions ex ↔ a ∈ m.actions ∧ includeThis a ex = true :=
  List.mem_filter

theorem akey_of_no_key_attr {a : Action} (h : a.key_attr = none) :
    a.akey = (a.name, KeyVal.uid a.uid) := by
  simp [Action.akey, Action.keyValue, h]

/-- C9: an action with no key attribute is never paired across manifests:
provided the two manifests are distinct live instances (disjoint object ids,
and no repeated object inside either), such a destination action appears in
added and never in changed, and such an origin action appears in removed and
never in changed, even when a content-equal action exists on the other
side. -/
theorem unkeyed_only_added_removed (dst org : Manifest) (oe de : List (Action → Bool))
    (hdisj : ∀ x ∈ dst.actions, ∀ y ∈ org.actions, x.uid ≠ y.uid)
    (hndst : (dst.actions.map Action.uid).Nodup)
    (hnorg : (org.actions.map Action.uid).Nodup) :
    (∀ a ∈ dst.actions, includeThis a de = true → a.key_attr = none →
      ((none, a) ∈ (dst.difference org oe de).added ∧
        ∀ p ∈ (dst.difference org oe de).changed, p.1 ≠ a ∧ p.2 ≠ a)) ∧
    (∀ b ∈ org.actions, includeThis b oe = true → b.key_attr = none →
      ((b, none) ∈ (dst.difference org oe de).removed ∧
        ∀ p ∈ (dst.difference org oe de).changed, p.1 ≠ b ∧ p.2 ≠ b)) := by
  have hnokeyD : ∀ a ∈ dst.actions, a.key_attr = none →
      ∀ y ∈ org.gen_actions oe, y.akey ≠ a.akey := by
    intro a ha hka y hy he
    rw [akey_of_no_key_attr hka] at he
    have h2 : y.keyValue = KeyVal.uid a.uid := congrArg Prod.snd he
    have h3 : a.uid = y.uid := keyValue_uid h2
    exact hdisj a ha y (gen_actions_subset org oe hy) h3
  have hnokeyO : ∀ b ∈ org.actions, b.key_attr = none →
      ∀ x ∈ dst.gen_actions de, x.akey ≠ b.akey := by
    intro b hb hkb x hx he
    rw [akey_of_no_key_attr hkb] at he
    have h2 : x.keyValue = KeyVal.uid b.uid := congrArg Prod.snd he
    have h3 : b.uid = x.uid := keyValue_uid h2
    exact hdisj x (gen_actions_subset dst de hx) b hb h3.symm
  constructor
  · intro a ha hinc hka
    have hmem : a ∈ dst.gen_actions de := mem_gen_actions.mpr ⟨ha, hinc⟩
    have hlast : lastWithKey (dst.gen_actions de) a.akey = some a := by
      apply lastWithKey_unique hmem rfl
      intro b hb he
      exact List.inj_on_of_nodup_map hndst (gen_actions_subset dst de hb) ha
        (keyValue_uid (show b.keyValue = KeyVal.uid a.uid from
          congrArg Prod.snd (he.trans (akey_of_no_key_attr hka)))).symm
    have hsmem : (a.akey, a) ∈ actionDict (dst.gen_actions de) :=
      dictLookup_mem (by rw [actionDict_lookup]; exact hlast)
    have hnot : a.akey ∉ dictKeys (actionDict (org.gen_actions oe)) := by
      rw [actionDict_keys_mem_iff]
      rintro ⟨y, hy, he⟩
      exact hnokeyD a ha hka y hy he
    constructor
    · simp only [Manifest.difference]
      apply (List.Perm.mem_iff (List.perm_insertionSort _ _)).mpr
      apply List.mem_filterMap.mpr
      exact ⟨(a.akey, a), hsmem, by rw [if_neg hnot]⟩
    · intro p hp
      simp only [Manifest.difference] at hp
      have hp0 := (List.Perm.mem_iff (List.perm_insertionSort _ _)).mp hp
      rcases List.mem_filterMap.mp hp0 with ⟨q, hq, hfq⟩
      rcases hqd : dictLookup (actionDict (dst.gen_actions de)) q.1 with _ | s
      · rw [hqd] at hfq
        exact Option.noConfusion (show (none : Option (Action × Action)) = some p from hfq)
      · rw [hqd] at hfq
        have hfq2 : (if (q.2.different s || decide (q.1.1 = "license")) = true
            then some (q.2, s) else none) = some p := hfq
        have hps : p = (q.2, s) := by
          by_cases hc : (q.2.different s || decide (q.1.1 = "license")) = true
          · rw [if_pos hc] at hfq2
            exact (Option.some.inj hfq2).symm
          · rw [if_neg hc] at hfq2
            cases hfq2
        have hq2 := mem_actionDict (show (q.1, q.2) ∈ actionDict (org.gen_actions oe) from hq)
        have hsmem2 := mem_actionDict (dictLookup_mem hqd)
        constructor
        · intro he
          rw [hps] at he
          have : a ∈ org.actions :=
            gen_actions_subset org oe ((show q.2 = a from he) ▸ hq2.1)
          exact hdisj a ha a this rfl
        · intro he
          rw [hps] at he
          have hsa : s = a := he
          have hk1 : q.1 = a.akey := hsa ▸ hsmem2.2
          have hq1mem : q.1 ∈ dictKeys (actionDict (org.gen_actions oe)) :=
            List.mem_map_of_mem (fun r => r.1) hq
          rw [hk1] at hq1mem
          exact hnot hq1mem
  · intro b hb hinc hkb
    have hmem : b ∈ org.gen_actions oe := mem_gen_actions.mpr ⟨hb, hinc⟩
    have hlast : lastWithKey (org.gen_actions oe) b.akey = some b := by
      apply lastWithKey_unique hmem rfl
      intro y hy he
      exact List.inj_on_of_nodup_map hnorg (gen_actions_subset org oe hy) hb
        (keyValue_uid (show y.keyValue = KeyVal.uid b.uid from
          congrArg Prod.snd (he.trans (akey_of_no_key_attr hkb)))).symm
    have homem : (b.akey, b) ∈ actionDict (org.gen_actions oe) :=
      dictLookup_mem (by rw [actionDict_lookup]; exact hlast)
    have hnot : b.akey ∉ dictKeys (actionDict (dst.gen_actions de)) := by
      rw [actionDict_keys_mem_iff]
      rintro ⟨x, hx, he⟩
      exact hnokeyO b hb hkb x hx he
    constructor
    · simp only [Manifest.difference]
      apply (List.Perm.mem_iff (List.perm_insertionSort _ _)).mpr
      apply List.mem_filterMap.mpr
      exact ⟨(b.akey, b), homem, by rw [if_neg hnot]⟩
    · intro p hp
      simp only [Manifest.difference] at hp
      have hp0 := (List.Perm.mem_iff (List.perm_insertionSort _ _)).mp hp
      rcases List.mem_filterMap.mp hp0 with ⟨q, hq, hfq⟩
      rcases hqd : dictLookup (actionDict (dst.gen_actions de)) q.1 with _ | s
      · rw [hqd] at hfq
        exact Option.noConfusion (show (none : Option (Action × Action)) = some p from hfq)
      · rw [hqd] at hfq
        have hfq2 : (if (q.2.different s || decide (q.1.1 = "license")) = true
            then some (q.2, s) else none) = some p := hfq
        have hps : p = (q.2, s) := by
          by_cases hc : (q.2.different s || decide (q.1.1 = "license")) = true
          · rw [if_pos hc] at hfq2
            exact (Option.some.inj hfq2).symm
          · rw [if_neg hc] at hfq2
            cases hfq2
        have hq2 := mem_actionDict (show (q.1, q.2) ∈ actionDict (org.gen_actions oe) from hq)
        have hsmem2 := mem_actionDict (dictLookup_mem hqd)
        constructor
        · intro he
          rw [hps] at he
          have hqb : q.2 = b := he
          have hk1 : q.1 = b.akey := hqb ▸ hq2.2
          have hq1mem : q.1 ∈ dictKeys (actionDict (dst.gen_actions de)) := by
            rw [← dictLookup_isSome_iff, hqd]
            rfl
          rw [hk1] at hq1mem
          exact hnot hq1mem
        · intro he
          rw [hps] at he
          have hsb : s = b := he
          have : b ∈ dst.actions := gen_actions_subset dst de (hsb ▸ hsmem2.1)
          exact hdisj b this b hb rfl

/-- C9 witness: the concrete unkeyed action of the destination appears only
as an addition, never in the changed list, although a content-equal unkeyed
action exists in the origin. -/
theorem unkeyed_only_added_removed_witness :
    aNoKey.key_attr = none ∧ aNoKey.different aNoKeyO = false ∧
      (none, aNoKey) ∈ (mDstW.difference mOrgW [] []).added ∧
      ∀ p ∈ (mDstW.difference mOrgW [] []).changed, p.1 ≠ aNoKey ∧ p.2 ≠ aNoKey := by
  have h := (unkeyed_only_added_removed mDstW mOrgW [] []
    (by decide) (by decide) (by decide)).1 aNoKey (by decide) (by decide) rfl
  exact ⟨rfl, by decide, h.1, h.2⟩

theorem actionDict_entry_last {as : List Action} {k : String × KeyVal} {a : Action}
    (h : (k, a) ∈ actionDict as) : k = a.akey ∧ lastWithKey as a.akey = some a := by
  have hk := (mem_actionDict h).2
  have hnd : (dictKeys (actionDict as)).Nodup := by
    rw [actionDict]
    exact dictKeys_dictOfList_nodup _
  have hl := dictLookup_eq_of_mem hnd h
  rw [actionDict_lookup] at hl
  exact ⟨hk, hk ▸ hl⟩

theorem mem_filterMap_if_gen {β : Type} {l : List ((String × KeyVal) × Action)}
    {cond : (String × KeyVal) → Prop} [DecidablePred cond]
    {g : (String × KeyVal) × Action → β} {u : β}
    (hu : u ∈ l.filterMap fun p => if cond p.1 then none else some (g p)) :
    ∃ q ∈ l, g q = u := by
  rcases List.mem_filterMap.mp hu with ⟨q, hq, hfq⟩
  refine ⟨q, hq, ?_⟩
  by_cases hc : cond q.1
  · rw [if_pos hc] at hfq
    cases hfq
  · rw [if_neg hc] at hfq
    exact Option.some.inj hfq

theorem zip_map_mem {α β : Type} (g : α → β) :
    ∀ (l : List α), ∀ p ∈ l.zip (l.map g), p.2 = g p.1 ∧ p.1 ∈ l := by
  intro l
  induction l with
  | nil => intro p hp; cases hp
  | cons x l ih =>
    intro p hp
    simp only [List.map_cons, List.zip_cons_cons] at hp
    rcases List.mem_cons.mp hp with hp | hp
    · rw [hp]
      exact ⟨rfl, List.mem_cons_self _ _⟩
    · rcases ih p hp with ⟨h1, h2⟩
      exact ⟨h1, List.mem_cons_of_mem _ h2⟩

/-- C10: for every identity key, difference and comm consider only the
action occurring last in insertion order among same-key actions: every
destination component of an added or changed pair, every origin component of
a changed or removed pair, every member of every manifest's unique list of
comm (each manifest paired positionally with its unique list), and every
member of the common list of comm is the last action of its manifest's
filtered sequence holding its identity key, so earlier same-key actions are
absent from all those result lists. -/
theorem last_key_wins (dst org A : Manifest) (rest : List Manifest)
    (oe de : List (Action → Bool)) :
    (∀ p ∈ (dst.difference org oe de).added,
        lastWithKey (dst.gen_actions de) p.2.akey = some p.2) ∧
    (∀ p ∈ (dst.difference org oe de).changed,
        lastWithKey (org.gen_actions oe) p.1.akey = some p.1 ∧
          lastWithKey (dst.gen_actions de) p.2.akey = some p.2) ∧
    (∀ p ∈ (dst.difference org oe de).removed,
        lastWithKey (org.gen_actions oe) p.1.akey = some p.1) ∧
    (∀ p ∈ (A :: rest).zip (Manifest.comm (A :: rest)).1, ∀ u ∈ p.2,
        lastWithKey p.1.actions u.akey = some u) ∧
    (∀ u ∈ (Manifest.comm (A :: rest)).2,
        lastWithKey A.actions u.akey = some u) := by
  refine ⟨?_, ?_, ?_, ?_, ?_⟩
  · intro p hp
    simp only [Manifest.difference] at hp
    have hp0 := (List.Perm.mem_iff (List.perm_insertionSort _ _)).mp hp
    rcases mem_filterMap_if_gen hp0 with ⟨q, hq, hgq⟩
    have hlast := actionDict_entry_last (show (q.1, q.2) ∈ _ from hq)
    have hq2 : q.2 = p.2 := congrArg Prod.snd hgq
    rw [← hq2]
    exact hlast.2
  · intro p hp
    simp only [Manifest.difference] at hp
    have hp0 := (List.Perm.mem_iff (List.perm_insertionSort _ _)).mp hp
    rcases List.mem_filterMap.mp hp0 with ⟨q, hq, hfq⟩
    rcases hqd : dictLookup (actionDict (dst.gen_actions de)) q.1 with _ | s
    · rw [hqd] at hfq
      exact Option.noConfusion (show (none : Option (Action × Action)) = some p from hfq)
    · rw [hqd] at hfq
      have hfq2 : (if (q.2.different s || decide (q.1.1 = "license")) = true
          then some (q.2, s) else none) = some p := hfq
      have hps : p = (q.2, s) := by
        by_cases hc : (q.2.different s || decide (q.1.1 = "license")) = true
        · rw [if_pos hc] at hfq2
          exact (Option.some.inj hfq2).symm
        · rw [if_neg hc] at hfq2
          cases hfq2
      have hqlast := actionDict_entry_last (show (q.1, q.2) ∈ _ from hq)
      have hslast := actionDict_entry_last (dictLookup_mem hqd)
      rw [hps]
      exact ⟨hqlast.2, hslast.2⟩
  · intro p hp
    simp only [Manifest.difference] at hp
    have hp0 := (List.Perm.mem_iff (List.perm_insertionSort _ _)).mp hp
    rcases mem_filterMap_if_gen hp0 with ⟨q, hq, hgq⟩
    have hlast := actionDict_entry_last (show (q.1, q.2) ∈ _ from hq)
    have hq2 : q.2 = p.1 := congrArg Prod.fst hgq
    rw [← hq2]
    exact hlast.2
  · intro p hp u hu
    simp only [Manifest.comm] at hp
    rw [List.map_map] at hp
    rcases zip_map_mem _ _ p hp with ⟨h2, _⟩
    rw [h2] at hu
    rcases mem_filterMap_if_gen hu with ⟨q, hq, hgq⟩
    have hlast := actionDict_entry_last (show (q.1, q.2) ∈ _ from hq)
    rw [← hgq]
    exact hlast.2
  · intro u hu
    simp only [Manifest.comm, List.map_cons] at hu
    rcases List.mem_filterMap.mp hu with ⟨k, _, hfk⟩
    have hlast := actionDict_entry_last (dictLookup_mem hfk)
    exact hlast.2

/-- C10 witness: in a manifest holding two same-key actions, only the later
one reaches the diff result and only the later one reaches its comm unique
list (here as the second, non-head comm input); the earlier one is absent
from both. -/
theorem last_key_wins_witness :
    ((none, dupZ) ∈ (mDupKeys.difference Manifest.empty [] []).added) ∧
      lastWithKey (mDupKeys.gen_actions []) dupZ.akey = some dupZ ∧
      dupX.akey = dupZ.akey ∧
      (∀ p ∈ (mDupKeys.difference Manifest.empty [] []).added, p.2 ≠ dupX) ∧
      ((mDupKeys, [dupZ]) ∈ (mOther :: [mDupKeys]).zip
        (Manifest.comm (mOther :: [mDupKeys])).1) ∧
      (∀ u ∈ ([dupZ] : List Action), lastWithKey mDupKeys.actions u.akey = some u) ∧
      dupX ∉ ([dupZ] : List Action) := by
  have h := last_key_wins mDupKeys Manifest.empty mOther [mDupKeys] [] []
  refine ⟨by decide, h.1 (none, dupZ) (by decide), by decide, ?_, by decide, ?_, by decide⟩
  · intro p hp he
    have h2 := h.1 p hp
    rw [he] at h2
    have h3 : lastWithKey (mDupKeys.gen_actions []) dupX.akey = some dupZ := by decide
    rw [h2] at h3
    exact absurd (Option.some.inj h3) (by decide)
  · intro u hu
    exact h.2.2.2.1 (mDupKeys, [dupZ]) (by decide) u hu

theorem actionDict_eq_of_nodup {as : List Action} (h : (as.map Action.akey).Nodup) :
    actionDict as = as.map fun a => (a.akey, a) := by
  rw [actionDict]
  apply dictOfList_eq_self
  have he : (List.map (fun p => p.1) (as.map fun a => (a.akey, a))) = as.map Action.akey := by
    rw [List.map_map]
    rfl
  rw [he]
  exact h

/-- C8 (amended): for two manifests whose identity keys are internally
distinct and disjoint across the manifests, comm returns each manifest's
own action list unchanged as its unique list and an empty common list. -/
theorem comm_disjoint (A B : Manifest)
    (hA : (A.actions.map Action.akey).Nodup)
    (hB : (B.actions.map Action.akey).Nodup)
    (hd : ∀ a ∈ A.actions, ∀ b ∈ B.actions, a.akey ≠ b.akey) :
    Manifest.comm [A, B] = ([A.actions, B.actions], []) := by
  have hdA := actionDict_eq_of_nodup hA
  have hdB := actionDict_eq_of_nodup hB
  have hfilter : (dictKeys (actionDict A.actions)).filter
      (fun k => decide (k ∈ dictKeys (actionDict B.actions))) = [] := by
    rw [List.filter_eq_nil_iff]
    intro k hk
    simp only [decide_eq_true_eq]
    intro hkB
    rcases (actionDict_keys_mem_iff A.actions k).mp hk with ⟨a, ha, hak⟩
    rcases (actionDict_keys_mem_iff B.actions k).mp hkB with ⟨b, hb, hbk⟩
    exact hd a ha b hb (hak.trans hbk.symm)
  have hgen : ∀ as : List Action,
      ((as.map fun a => (a.akey, a)).filterMap fun p =>
        if p.1 ∈ ([] : List (String × KeyVal)) then none else some p.2) = as := by
    intro as
    induction as with
    | nil => rfl
    | cons a t ih =>
      rw [List.map_cons, List.filterMap_cons]
      rw [show (if ((a.akey, a) : (String × KeyVal) × Action).1 ∈ ([] : List (String × KeyVal))
          then none else some ((a.akey, a) : (String × KeyVal) × Action).2) = some a
        from if_neg (List.not_mem_nil _)]
      rw [ih]
  have hfmA : ((actionDict A.actions).filterMap fun p =>
      if p.1 ∈ ([] : List (String × KeyVal)) then none else some p.2) = A.actions := by
    rw [hdA]
    exact hgen A.actions
  have hfmB : ((actionDict B.actions).filterMap fun p =>
      if p.1 ∈ ([] : List (String × KeyVal)) then none else some p.2) = B.actions := by
    rw [hdB]
    exact hgen B.actions
  simp only [Manifest.comm, List.map_cons, List.map_nil, List.foldl_cons, List.foldl_nil]
  simp only [hfilter, List.filter_nil]
  rw [hfmA, hfmB]
  simp

/-- C8 counterexample: a manifest with two internally same-key actions
(against the empty manifest, so the cross-manifest key sets are trivially
disjoint) loses its earlier same-key action from the unique list, so the
claim as stated fails without the internal-distinctness condition. -/
theorem comm_dup_keys_cex :
    (∀ a ∈ mDupKeys.actions, ∀ b ∈ Manifest.empty.actions, a.akey ≠ b.akey) ∧
      Manifest.comm [mDupKeys, Manifest.empty]
        ≠ ([mDupKeys.actions, Manifest.empty.actions], []) := by
  constructor
  · decide
  · decide

/-- C8 witness: two concrete disjoint-key manifests comm to their own action
lists and an empty common list. -/
theorem comm_disjoint_witness :
    (mPlain.actions.map Action.akey).Nodup ∧ (mOther.actions.map Action.akey).Nodup ∧
      (∀ a ∈ mPlain.actions, ∀ b ∈ mOther.actions, a.akey ≠ b.akey) ∧
      Manifest.comm [mPlain, mOther] = ([mPlain.actions, mOther.actions], []) :=
  ⟨by decide, by decide, by decide,
    comm_disjoint mPlain mOther (by decide) (by decide) (by decide)⟩

/-- C5: evaluation of the attribute-write operation at the failing input.
Writing an attribute into a fresh manifest synthesizes and appends an
attribute-set action to the action list, but the by-type index is left
unchanged (no entry for the set category), so actions_by_type for the set
category no longer equals the filter of actions by that category. -/
theorem setitem_bytype_bug :
    (Manifest.empty.setitem "foo" "bar" 99).map (fun m =>
        (dictLookup m.actions_bytype "set", m.actions.filter fun a => decide (a.name = "set")))
      = Except.ok (none, [AttributeAction.make "foo" "bar" 99]) := by
  decide

/-- C6: evaluation of the parse path at the failing input.  A manifest text
whose attribute-set action lacks the name attribute makes set_content fail
with the KeyError raised by the unguarded legacy-authority lookup, instead
of being dropped silently; a set action lacking only the value attribute is
tolerated as the claim describes (kept in actions, absent from
attributes). -/
theorem set_content_missing_name_fails :
    Manifest.empty.set_content "set value=v1" [] = Except.error Err.keyError ∧
      (Manifest.empty.set_content "set name=n1" []).map
          (fun m => (m.attributes, m.actions.length))
        = Except.ok ([], 1) := by
  constructor
  · decide
  · decide

theorem different_ne {x y : Action} (h : x.different y = true) : x ≠ y := by
  simp only [Action.different, decide_eq_true_eq] at h
  exact fun e => h (congrArg Action.attrs e)

theorem setAdd_length_le {α : Type} [DecidableEq α] (s : List α) (a : α) :
    s.length ≤ (setAdd s a).length := by
  unfold setAdd
  by_cases h : a ∈ s
  · rw [if_pos h]
  · rw [if_neg h]
    simp

theorem dupsAux_eq_foldPairs : ∀ (g : List Action) (acc : List Action),
    dupsAux acc g = (g.zip g.tail).foldl
      (fun s q => if q.1.different q.2 then setAdd (setAdd s q.1) q.2 else s) acc := by
  intro g
  induction g with
  | nil => intro acc; rfl
  | cons a t ih =>
    cases t with
    | nil => intro acc; rfl
    | cons b r =>
      intro acc
      have h1 : dupsAux acc (a :: b :: r) =
          dupsAux (if a.different b then setAdd (setAdd acc a) b else acc) (b :: r) := rfl
      rw [h1, ih]
      rfl

theorem dupsAux_eq_adjDiffMembers (g : List Action) : dupsAux [] g = adjDiffMembers g :=
  dupsAux_eq_foldPairs g []

theorem foldPairs_len : ∀ (pairs : List (Action × Action)) (acc : List Action),
    (acc = [] ∨ 2 ≤ acc.length) →
    (pairs.foldl (fun s q => if q.1.different q.2 then setAdd (setAdd s q.1) q.2 else s) acc = []
      ∨ 2 ≤ (pairs.foldl
          (fun s q => if q.1.different q.2 then setAdd (setAdd s q.1) q.2 else s) acc).length) := by
  intro pairs
  induction pairs with
  | nil => exact fun acc h => h
  | cons q pairs ih =>
    intro acc h
    simp only [List.foldl_cons]
    apply ih
    by_cases hd : q.1.different q.2 = true
    · right
      rw [if_pos hd]
      rcases h with h | h
      · subst h
        have hne : ¬ q.2 ∈ [q.1] := by
          simp only [List.mem_singleton]
          exact fun e => different_ne hd e.symm
        have h1 : setAdd ([] : List Action) q.1 = [q.1] := by simp [setAdd]
        have h2 : setAdd [q.1] q.2 = [q.1, q.2] := by rw [setAdd, if_neg hne]; rfl
        rw [h1, h2]
        simp
      · calc 2 ≤ acc.length := h
          _ ≤ (setAdd acc q.1).length := setAdd_length_le _ _
          _ ≤ (setAdd (setAdd acc q.1) q.2).length := setAdd_length_le _ _
    · rw [if_neg hd]
      exact h

theorem adjDiffMembers_len {g : List Action} (h : adjDiffMembers g ≠ []) :
    2 ≤ (adjDiffMembers g).length := by
  rcases foldPairs_len (g.zip g.tail) [] (Or.inl rfl) with h2 | h2
  · exact absurd h2 h
  · exact h2

theorem filter_all_key {l : List Action} {k : String × KeyVal} (h : ∀ x ∈ l, x.akey = k) :
    l.filter (fun a => decide (a.akey = k)) = l :=
  List.filter_eq_self.mpr (by intro a ha; simpa using h a ha)

theorem runsGo_sound :
    ∀ (l : List Action) (k : String × KeyVal) (acc : List Action),
      acc ≠ [] →
      (∀ x ∈ acc, x.akey = k) →
      l.Pairwise (fun a b => akLe a.akey b.akey = true) →
      (∀ b ∈ l, akLe k b.akey = true) →
      ∀ k2 g, (k2, g) ∈ runsGo k acc l →
        g = (acc.reverse ++ l).filter (fun a => decide (a.akey = k2)) ∧ g ≠ [] := by
  intro l
  induction l with
  | nil =>
    intro k acc hne hacc _ _ k2 g hm
    have hm2 : (k2, g) = (k, acc.reverse) := List.mem_singleton.mp hm
    have hk2 : k2 = k := congrArg Prod.fst hm2
    have hg : g = acc.reverse := congrArg Prod.snd hm2
    constructor
    · rw [hg, List.append_nil, hk2]
      exact (filter_all_key (by intro x hx; exact hacc x (List.mem_reverse.mp hx))).symm
    · rw [hg]
      simpa using hne
  | cons a rest ih =>
    intro k acc hne hacc hp hall k2 g hm
    rcases List.pairwise_cons.mp hp with ⟨hhead, htail⟩
    by_cases ha : a.akey = k
    · have hstep : runsGo k acc (a :: rest) = runsGo k (a :: acc) rest := by
        simp [runsGo, ha]
      rw [hstep] at hm
      have hres := ih k (a :: acc) (by simp)
        (by intro x hx
            rcases List.mem_cons.mp hx with hx | hx
            · rw [hx]; exact ha
            · exact hacc x hx)
        htail
        (by intro b hb; exact ha ▸ hhead b hb)
        k2 g hm
      rcases hres with ⟨hg, hgne⟩
      refine ⟨?_, hgne⟩
      rw [hg, List.reverse_cons, List.append_assoc, List.singleton_append]
    · have hstep : runsGo k acc (a :: rest) = (k, acc.reverse) :: runsGo a.akey [a] rest := by
        simp [runsGo, ha]
      rw [hstep] at hm
      have hrest_ne : ∀ b ∈ rest, b.akey ≠ k := by
        intro b hb he
        have h1 : akLe a.akey k = true := he ▸ hhead b hb
        have h2 : akLe k a.akey = true := hall a (List.mem_cons_self a rest)
        exact ha (akLe_antisymm _ _ h1 h2)
      rcases List.mem_cons.mp hm with hm | hm
      · have hk2 : k2 = k := congrArg Prod.fst hm
        have hg : g = acc.reverse := congrArg Prod.snd hm
        constructor
        · rw [hg, hk2, List.filter_append]
          rw [filter_all_key (by intro x hx; exact hacc x (List.mem_reverse.mp hx))]
          have hnil : (a :: rest).filter (fun x => decide (x.akey = k)) = [] := by
            rw [List.filter_eq_nil_iff]
            intro x hx
            simp only [decide_eq_true_eq]
            rcases List.mem_cons.mp hx with hx | hx
            · rw [hx]; exact ha
            · exact hrest_ne x hx
          rw [hnil, List.append_nil]
        · rw [hg]
          simpa using hne
      · have hres := ih a.akey [a] (by simp)
          (by intro x hx; rw [List.mem_singleton.mp hx])
          htail hhead k2 g hm
        rcases hres with ⟨hg, hgne⟩
        have hx : ∃ x ∈ a :: rest, x.akey = k2 := by
          by_contra hcon
          push_neg at hcon
          apply hgne
          rw [hg, show ([a] : List Action).reverse ++ rest = a :: rest by simp,
            List.filter_eq_nil_iff]
          intro x hxx
          simp only [decide_eq_true_eq]
          exact hcon x hxx
        have hk2ne : ¬ k2 = k := by
          intro he
          rcases hx with ⟨x, hxm, hxk⟩
          rcases List.mem_cons.mp hxm with hxm2 | hxm2
          · rw [hxm2] at hxk
            exact ha (hxk.trans he)
          · exact hrest_ne x hxm2 (hxk.trans he)
        refine ⟨?_, hgne⟩
        rw [hg, show ([a] : List Action).reverse ++ rest = a :: rest by simp,
          List.filter_append]
        have haccnil : acc.reverse.filter (fun x => decide (x.akey = k2)) = [] := by
          rw [List.filter_eq_nil_iff]
          intro x hxx
          simp only [decide_eq_true_eq]
          intro he
          exact hk2ne (he.symm.trans (hacc x (List.mem_reverse.mp hxx)))
        rw [haccnil, List.nil_append]

theorem runsGo_cover :
    ∀ (l : List Action) (k : String × KeyVal) (acc : List Action),
      (∀ x ∈ acc, x.akey = k) →
      ∀ x, x ∈ acc.reverse ++ l → ∃ g, (x.akey, g) ∈ runsGo k acc l := by
  intro l
  induction l with
  | nil =>
    intro k acc hacc x hx
    rw [List.append_nil] at hx
    refine ⟨acc.reverse, ?_⟩
    rw [hacc x (List.mem_reverse.mp hx)]
    exact List.mem_singleton.mpr rfl
  | cons a rest ih =>
    intro k acc hacc x hx
    by_cases ha : a.akey = k
    · have hstep : runsGo k acc (a :: rest) = runsGo k (a :: acc) rest := by
        simp [runsGo, ha]
      rw [hstep]
      apply ih k (a :: acc)
      · intro y hy
        rcases List.mem_cons.mp hy with hy | hy
        · rw [hy]; exact ha
        · exact hacc y hy
      · rw [List.reverse_cons, List.append_assoc, List.singleton_append]
        exact hx
    · have hstep : runsGo k acc (a :: rest) = (k, acc.reverse) :: runsGo a.akey [a] rest := by
        simp [runsGo, ha]
      rw [hstep]
      rcases List.mem_append.mp hx with hx | hx
      · refine ⟨acc.reverse, ?_⟩
        rw [hacc x (List.mem_reverse.mp hx)]
        exact List.mem_cons_self _ _
      · have hres := ih a.akey [a] (by intro y hy; rw [List.mem_singleton.mp hy]) x
          (by rw [show ([a] : List Action).reverse ++ rest = a :: rest by simp]; exact hx)
        rcases hres with ⟨g, hg⟩
        exact ⟨g, List.mem_cons_of_mem _ hg⟩

theorem groupRuns_sound {l : List Action}
    (hs : l.Pairwise fun a b => akLe a.akey b.akey = true) :
    ∀ k2 g, (k2, g) ∈ groupRuns l →
      g = l.filter (fun a => decide (a.akey = k2)) ∧ g ≠ [] := by
  cases l with
  | nil => intro k2 g hm; cases hm
  | cons a rest =>
    intro k2 g hm
    rcases List.pairwise_cons.mp hs with ⟨hhead, htail⟩
    have hres := runsGo_sound rest a.akey [a] (by simp)
      (by intro x hx; rw [List.mem_singleton.mp hx]) htail hhead k2 g hm
    rwa [show ([a] : List Action).reverse ++ rest = a :: rest by simp] at hres

theorem groupRuns_cover {l : List Action} :
    ∀ x ∈ l, ∃ g, (x.akey, g) ∈ groupRuns l := by
  cases l with
  | nil => intro x hx; cases hx
  | cons a rest =>
    intro x hx
    exact runsGo_cover rest a.akey [a] (by intro y hy; rw [List.mem_singleton.mp hy]) x
      (by rw [show ([a] : List Action).reverse ++ rest = a :: rest by simp]; exact hx)

/-- C4 (amended): the duplicate detector reports, for an identity key, the
members of the differing adjacent pairs of the key's sorted group (both
members of each differing pair, and only those, so an action all of whose
neighbours agree with it is absent even when its group conflicts elsewhere);
an entry exists exactly when some adjacent pair of the group differs, every
reported set has at least two actions, and in particular groups of size at
most one never produce an entry. -/
theorem duplicates_spec (m : Manifest) (ex : List (Action → Bool)) :
    (∀ (k : String × KeyVal) (ds : List Action),
        ((k, ds) ∈ m.duplicates ex ↔
          (adjDiffMembers ((m.dupSorted ex).filter fun a => decide (a.akey = k)) ≠ [] ∧
            ds = adjDiffMembers ((m.dupSorted ex).filter fun a => decide (a.akey = k))))) ∧
    (∀ (k : String × KeyVal) (ds : List Action), (k, ds) ∈ m.duplicates ex → 2 ≤ ds.length) := by
  haveI i1 : IsTotal Action fun a b => akLe a.akey b.akey = true :=
    ⟨fun a b => by simpa using akLe_total a.akey b.akey⟩
  haveI i2 : IsTrans Action fun a b => akLe a.akey b.akey = true :=
    ⟨fun a b c => akLe_trans _ _ _⟩
  have hsorted : (m.dupSorted ex).Pairwise fun a b => akLe a.akey b.akey = true :=
    List.sorted_insertionSort _ _
  have hform : m.duplicates ex = (groupRuns (m.dupSorted ex)).filterMap fun p =>
      if (dupsAux [] p.2).isEmpty then none else some (p.1, dupsAux [] p.2) := rfl
  have hfwd : ∀ (k : String × KeyVal) (ds : List Action), (k, ds) ∈ m.duplicates ex →
      (adjDiffMembers ((m.dupSorted ex).filter fun a => decide (a.akey = k)) ≠ [] ∧
        ds = adjDiffMembers ((m.dupSorted ex).filter fun a => decide (a.akey = k))) := by
    intro k ds hm
    rw [hform] at hm
    rcases List.mem_filterMap.mp hm with ⟨p, hp, hfp⟩
    by_cases he : (dupsAux [] p.2).isEmpty
    · rw [if_pos he] at hfp
      cases hfp
    · rw [if_neg he] at hfp
      have hk : p.1 = k := congrArg Prod.fst (Option.some.inj hfp)
      have hds : dupsAux [] p.2 = ds := congrArg Prod.snd (Option.some.inj hfp)
      have hg := groupRuns_sound hsorted p.1 p.2 (show (p.1, p.2) ∈ _ from hp)
      have hne : dupsAux [] p.2 ≠ [] := fun h0 => he (by rw [h0]; rfl)
      constructor
      · rw [← hk, ← hg.1, ← dupsAux_eq_adjDiffMembers]
        exact hne
      · rw [← hds, ← hk, ← hg.1, ← dupsAux_eq_adjDiffMembers]
  refine ⟨fun k ds => ⟨hfwd k ds, ?_⟩, ?_⟩
  · rintro ⟨hne, hds⟩
    have hGne : ((m.dupSorted ex).filter fun a => decide (a.akey = k)) ≠ [] := by
      intro h0
      apply hne
      rw [h0]
      rfl
    have hxex : ∃ x ∈ m.dupSorted ex, x.akey = k := by
      by_contra hcon
      push_neg at hcon
      apply hGne
      rw [List.filter_eq_nil_iff]
      intro x hxx
      simp only [decide_eq_true_eq]
      exact hcon x hxx
    rcases hxex with ⟨x, hxm, hxk⟩
    rcases groupRuns_cover x hxm with ⟨g, hgm⟩
    rw [hxk] at hgm
    have hgs := groupRuns_sound hsorted k g hgm
    rw [hform]
    apply List.mem_filterMap.mpr
    refine ⟨(k, g), hgm, ?_⟩
    have hgadj : dupsAux [] g =
        adjDiffMembers ((m.dupSorted ex).filter fun a => decide (a.akey = k)) := by
      rw [dupsAux_eq_adjDiffMembers, hgs.1]
    have hie : ¬ (dupsAux [] g).isEmpty = true := by
      intro h0
      apply hne
      rw [← hgadj]
      exact List.isEmpty_iff.mp h0
    rw [if_neg hie, hgadj, ← hds]
  · intro k ds hm
    have h1 := hfwd k ds hm
    rw [h1.2]
    exact adjDiffMembers_len h1.1

/-- C4 counterexample: a three-action same-key group in which only the
second and third actions form a differing adjacent pair yields a conflict
entry for the key that omits the first action of the group, so the claim
that every action of the group is included fails. -/
theorem duplicates_not_whole_group_cex :
    dupX ∈ mDup.gen_actions [] ∧ dupX.akey = ("file", KeyVal.attr "p") ∧
      (("file", KeyVal.attr "p"), [dupY, dupZ]) ∈ mDup.duplicates [] ∧
      dupX ∉ ([dupY, dupZ] : List Action) := by
  refine ⟨by decide, by decide, by decide, by decide⟩

/-- C4 witness: the duplicate-detector characterization applied to the
concrete three-action group. -/
theorem duplicates_spec_witness :
    ((("file", KeyVal.attr "p"), [dupY, dupZ]) ∈ mDup.duplicates []) ∧
      ([dupY, dupZ] : List Action) = adjDiffMembers ((mDup.dupSorted []).filter fun a =>
        decide (a.akey = ("file", KeyVal.attr "p"))) ∧
      2 ≤ ([dupY, dupZ] : List Action).length := by
  have h := duplicates_spec mDup []
  have hm : (("file", KeyVal.attr "p"), [dupY, dupZ]) ∈ mDup.duplicates [] := by decide
  exact ⟨hm, ((h.1 _ _).mp hm).2, h.2 _ _ hm⟩

theorem takeWhile_all_append {α : Type} {p : α → Bool} :
    ∀ {l : List α}, (∀ x ∈ l, p x = true) → ∀ (r : List α),
      (l ++ r).takeWhile p = l ++ r.takeWhile p := by
  intro l
  induction l with
  | nil => intro _ r; rfl
  | cons a l ih =>
    intro h r
    rw [List.cons_append, List.takeWhile_cons_of_pos (h a (List.mem_cons_self _ _)),
      ih (fun x hx => h x (List.mem_cons_of_mem _ hx)) r, List.cons_append]

theorem dropWhile_all_append {α : Type} {p : α → Bool} :
    ∀ {l : List α}, (∀ x ∈ l, p x = true) → ∀ (r : List α),
      (l ++ r).dropWhile p = r.dropWhile p := by
  intro l
  induction l with
  | nil => intro _ r; rfl
  | cons a l ih =>
    intro h r
    rw [List.cons_append, List.dropWhile_cons_of_pos (h a (List.mem_cons_self _ _)),
      ih (fun x hx => h x (List.mem_cons_of_mem _ hx)) r]

theorem splitLinesGo_append :
    ∀ (l : List Char), (∀ c ∈ l, c ≠ '\n') → ∀ (acc R : List Char),
      splitLinesGo acc (l ++ '\n' :: R) =
        (acc.reverse ++ l) ::
          (match R with | [] => [] | _ :: _ => splitLinesGo [] R) := by
  intro l
  induction l with
  | nil =>
    intro _ acc R
    simp [splitLinesGo]
  | cons c l ih =>
    intro hl acc R
    have hc : c ≠ '\n' := hl c (List.mem_cons_self _ _)
    rw [List.cons_append,
      show splitLinesGo acc (c :: (l ++ '\n' :: R))
        = splitLinesGo (c :: acc) (l ++ '\n' :: R) by simp [splitLinesGo, hc],
      ih (fun d hd => hl d (List.mem_cons_of_mem _ hd)) (c :: acc) R,
      List.reverse_cons, List.append_assoc, List.singleton_append]

theorem splitLinesCh_match (R : List Char) :
    (match R with | [] => ([] : List (List Char)) | _ :: _ => splitLinesGo [] R)
      = splitLinesCh R := by
  cases R <;> rfl

theorem splitLinesCh_joinLines : ∀ (ls : List (List Char)),
    (∀ l ∈ ls, ∀ c ∈ l, c ≠ '\n') → splitLinesCh (joinLines ls) = ls := by
  intro ls
  induction ls with
  | nil => intro _; rfl
  | cons l ls ih =>
    intro h
    have hjoin : joinLines (l :: ls) = l ++ '\n' :: joinLines ls := by
      simp [joinLines]
    rw [hjoin]
    have hsplit : splitLinesCh (l ++ '\n' :: joinLines ls)
        = splitLinesGo [] (l ++ '\n' :: joinLines ls) := by
      cases l with
      | nil => rfl
      | cons c t => rfl
    rw [hsplit, splitLinesGo_append l (h l (List.mem_cons_self _ _)) [] (joinLines ls),
      List.reverse_nil, List.nil_append, splitLinesCh_match,
      ih (fun l2 hl2 => h l2 (List.mem_cons_of_mem _ hl2))]

theorem splitTokensGo_noSpace :
    ∀ (t : List Char), (∀ c ∈ t, c ≠ ' ') → ∀ (acc rest : List Char),
      splitTokensGo acc (t ++ rest) = splitTokensGo (t.reverse ++ acc) rest := by
  intro t
  induction t with
  | nil => intro _ acc rest; rfl
  | cons c t ih =>
    intro h acc rest
    have hc : c ≠ ' ' := h c (List.mem_cons_self _ _)
    rw [List.cons_append,
      show splitTokensGo acc (c :: (t ++ rest)) = splitTokensGo (c :: acc) (t ++ rest) by
        simp [splitTokensGo, hc],
      ih (fun d hd => h d (List.mem_cons_of_mem _ hd)) (c :: acc) rest,
      List.reverse_cons, List.append_assoc, List.singleton_append]

theorem splitTokensCh_sepJoin : ∀ (toks : List (List Char)),
    (∀ t ∈ toks, t ≠ [] ∧ ∀ c ∈ t, c ≠ ' ') →
    splitTokensCh (sepJoin ' ' toks) = toks := by
  intro toks
  induction toks with
  | nil => intro _; rfl
  | cons t ts ih =>
    intro h
    rcases h t (List.mem_cons_self _ _) with ⟨htne, htns⟩
    have hrevne : ¬ t.reverse.isEmpty = true := by
      simp [List.isEmpty_iff, htne]
    cases ts with
    | nil =>
      show splitTokensCh t = [t]
      have hgo := splitTokensGo_noSpace t htns [] []
      rw [List.append_nil] at hgo
      rw [splitTokensCh, hgo, List.append_nil,
        show splitTokensGo t.reverse [] =
          (if t.reverse.isEmpty then [] else [t.reverse.reverse]) from rfl,
        if_neg hrevne, List.reverse_reverse]
    | cons t2 ts2 =>
      show splitTokensCh (t ++ ' ' :: sepJoin ' ' (t2 :: ts2)) = t :: t2 :: ts2
      rw [splitTokensCh, splitTokensGo_noSpace t htns [] (' ' :: sepJoin ' ' (t2 :: ts2)),
        List.append_nil,
        show splitTokensGo t.reverse (' ' :: sepJoin ' ' (t2 :: ts2))
          = (if t.reverse.isEmpty then [] else [t.reverse.reverse])
            ++ splitTokensGo [] (sepJoin ' ' (t2 :: ts2)) by simp [splitTokensGo],
        if_neg hrevne, List.reverse_reverse]
      have hih := ih fun t3 h3 => h t3 (List.mem_cons_of_mem _ h3)
      rw [splitTokensCh] at hih
      rw [hih]
      rfl

theorem parseAttrTok_serAttr (p : String × String)
    (hk : p.1.data ≠ []) (hkeq : ∀ c ∈ p.1.data, c ≠ '=') :
    parseAttrTok (serAttr p) = some p := by
  have hall : ∀ c ∈ p.1.data, (fun c => decide (c ≠ '=')) c = true := by
    intro c hc
    simpa using hkeq c hc
  have ht : (p.1.data ++ '=' :: p.2.data).takeWhile (fun c => decide (c ≠ '=')) = p.1.data := by
    rw [takeWhile_all_append hall]
    simp
  have hd : (p.1.data ++ '=' :: p.2.data).dropWhile (fun c => decide (c ≠ '=')) =
      '=' :: p.2.data := by
    rw [dropWhile_all_append hall]
    simp
  rw [parseAttrTok, serAttr]
  simp only [ht, hd]
  rw [if_neg (by simpa [List.isEmpty_iff] using hk)]

theorem attrsGet_eq_dictLookup (l : List (String × String)) (k : String) :
    attrsGet l k = dictLookup l k := rfl

theorem dictInsert_self {κ α : Type} [DecidableEq κ] :
    ∀ {d : List (κ × α)} {k : κ} {v : α}, dictLookup d k = some v → dictInsert d k v = d := by
  intro d
  induction d with
  | nil => intro k v h; cases h
  | cons p d ih =>
    intro k v h
    rw [dictLookup_cons] at h
    by_cases hp : p.1 = k
    · rw [if_pos hp] at h
      have hv : p.2 = v := Option.some.inj h
      rw [dictInsert, if_pos hp]
      cases p with
      | mk p1 p2 =>
        simp only at hp hv
        rw [hp, hv]
    · rw [if_neg hp] at h
      rw [dictInsert, if_neg hp, ih h]

theorem mem_sepJoin {c sep : Char} :
    ∀ {toks : List (List Char)}, c ∈ sepJoin sep toks → c = sep ∨ ∃ t ∈ toks, c ∈ t := by
  intro toks
  induction toks with
  | nil => intro h; cases h
  | cons t ts ih =>
    cases ts with
    | nil =>
      intro h
      exact Or.inr ⟨t, List.mem_cons_self _ _, h⟩
    | cons t2 ts2 =>
      intro h
      rcases List.mem_append.mp h with h | h
      · exact Or.inr ⟨t, List.mem_cons_self _ _, h⟩
      · rcases List.mem_cons.mp h with h | h
        · exact Or.inl h
        · rcases ih h with h | ⟨t3, h3, hc⟩
          · exact Or.inl h
          · exact Or.inr ⟨t3, List.mem_cons_of_mem _ h3, hc⟩

theorem cleanChars_mem {cs : List Char} (h : cleanChars cs = true) :
    ∀ c ∈ cs, c.isWhitespace = false := by
  intro c hc
  have h2 := List.all_eq_true.mp h c hc
  simpa using h2

theorem cleanChars_ne_space {cs : List Char} (h : cleanChars cs = true) :
    ∀ c ∈ cs, c ≠ ' ' := by
  intro c hc he
  have h2 := cleanChars_mem h c hc
  rw [he] at h2
  exact absurd h2 (by decide)

theorem cleanChars_ne_newline {cs : List Char} (h : cleanChars cs = true) :
    ∀ c ∈ cs, c ≠ '\n' := by
  intro c hc he
  have h2 := cleanChars_mem h c hc
  rw [he] at h2
  exact absurd h2 (by decide)

theorem wf_fields {a : Action} (ha : a.wf = true) :
    a.name.data ≠ [] ∧ cleanChars a.name.data = true ∧ a.name.data.head? ≠ some '#' ∧
      (∀ p ∈ a.attrs, wfAttr p = true) ∧ (a.attrs.map fun p => p.1).Nodup ∧
      (match attrsGet a.attrs "pkg.size" with
        | none => true
        | some s => (parseNatCh s.data).isSome) = true ∧
      (match attrsGet a.attrs "path" with
        | none => true
        | some p => decide (p.data.head? ≠ some '/')) = true ∧
      (if a.name = "set" then
        match attrsGet a.attrs "name" with
        | none => false
        | some n => decide (n ≠ "authority")
       else true) = true := by
  simp only [Action.wf, Bool.and_eq_true] at ha
  obtain ⟨⟨⟨⟨⟨⟨⟨h1, h2⟩, h3⟩, h4⟩, h5⟩, h6⟩, h7⟩, h8⟩ := ha
  refine ⟨?_, h2, by simpa using h3, ?_, by simpa using h5, h6, h7, h8⟩
  · simpa [List.isEmpty_iff] using h1
  · intro p hp
    exact List.all_eq_true.mp h4 p hp

theorem wfAttr_fields {p : String × String} (h : wfAttr p = true) :
    p.1.data ≠ [] ∧ cleanChars p.1.data = true ∧ (∀ c ∈ p.1.data, c ≠ '=') ∧
      cleanChars p.2.data = true := by
  simp only [wfAttr, Bool.and_eq_true] at h
  obtain ⟨⟨⟨h1, h2⟩, h3⟩, h4⟩ := h
  refine ⟨by simpa [List.isEmpty_iff] using h1, h2, ?_, h4⟩
  intro c hc
  simpa using List.all_eq_true.mp h3 c hc

theorem serAttr_token {p : String × String} (h : wfAttr p = true) :
    serAttr p ≠ [] ∧ ∀ c ∈ serAttr p, c ≠ ' ' := by
  obtain ⟨h1, h2, h3, h4⟩ := wfAttr_fields h
  constructor
  · rw [serAttr]
    cases hd : p.1.data with
    | nil => exact absurd hd h1
    | cons c cs => simp
  · intro c hc
    rw [serAttr] at hc
    rcases List.mem_append.mp hc with hc | hc
    · exact cleanChars_ne_space h2 c hc
    · rcases List.mem_cons.mp hc with hc | hc
      · rw [hc]; decide
      · exact cleanChars_ne_space h4 c hc

theorem serialize_tokens {a : Action} (ha : a.wf = true) :
    splitTokensCh a.serialize = a.name.data :: a.attrs.map serAttr := by
  obtain ⟨h1, h2, _, h4, _⟩ := wf_fields ha
  rw [Action.serialize]
  apply splitTokensCh_sepJoin
  intro t ht
  rcases List.mem_cons.mp ht with ht | ht
  · subst ht
    exact ⟨h1, cleanChars_ne_space h2⟩
  · rcases List.mem_map.mp ht with ⟨p, hp, he⟩
    subst he
    exact serAttr_token (h4 p hp)

theorem mapM_serAttr : ∀ {l : List (String × String)}, (∀ p ∈ l, wfAttr p = true) →
    (l.map serAttr).mapM parseAttrTok = some l := by
  intro l
  induction l with
  | nil => intro _; rfl
  | cons p l ih =>
    intro h
    have hp := wfAttr_fields (h p (List.mem_cons_self _ _))
    have hparse : parseAttrTok (serAttr p) = some p :=
      parseAttrTok_serAttr p hp.1 hp.2.2.1
    rw [List.map_cons, List.mapM_cons, hparse,
      ih (fun q hq => h q (List.mem_cons_of_mem _ hq))]
    rfl

theorem fromstr_serialize {a : Action} (ha : a.wf = true) (uid : Nat) :
    fromstr uid a.serialize =
      Except.ok ⟨a.name, keyAttrTable a.name, a.attrs, uid⟩ := by
  obtain ⟨_, _, _, h4, h5, _⟩ := wf_fields ha
  simp only [fromstr, serialize_tokens ha, mapM_serAttr h4]
  rw [dictOfList_eq_self h5]

theorem authorityFix_wf {b : Action}
    (h8 : (if b.name = "set" then
        match attrsGet b.attrs "name" with
        | none => false
        | some n => decide (n ≠ "authority")
      else true) = true) :
    authorityFix b = Except.ok b := by
  rw [authorityFix]
  by_cases hset : b.name = "set"
  · rw [if_pos hset]
    rw [if_pos hset] at h8
    cases hn : attrsGet b.attrs "name" with
    | none =>
      rw [hn] at h8
      simp at h8
    | some n =>
      rw [hn] at h8
      have h8b : ¬ n = "authority" := by simpa using h8
      show Except.ok (if n = "authority" then
        Action.mk b.name b.key_attr (dictInsert b.attrs "name" "publisher") b.uid else b)
        = Except.ok b
      rw [if_neg h8b]
  · rw [if_neg hset]

theorem stripPath_wf {b : Action}
    (h7 : (match attrsGet b.attrs "path" with
      | none => true
      | some p => decide (p.data.head? ≠ some '/')) = true) :
    stripPath b = b := by
  rw [stripPath]
  cases hp : attrsGet b.attrs "path" with
  | none => rfl
  | some p =>
    rw [hp] at h7
    simp only [decide_eq_true_eq] at h7
    have hpd : p.data.dropWhile (fun ch => decide (ch = '/')) = p.data := by
      cases hpp : p.data with
      | nil => rfl
      | cons c cs =>
        apply List.dropWhile_cons_of_neg
        simp only [decide_eq_true_eq]
        intro he
        apply h7
        rw [hpp, he]
        rfl
    show Action.mk b.name b.key_attr (dictInsert b.attrs "path"
        (String.mk (p.data.dropWhile fun ch => decide (ch = '/')))) b.uid = b
    rw [hpd]
    have hmk : String.mk p.data = p := rfl
    rw [hmk, dictInsert_self (attrsGet_eq_dictLookup _ _ ▸ hp)]

theorem processLine_serialize {a : Action} (ha : a.wf = true) (st : Manifest × Nat) :
    processLine [] st a.serialize =
      Except.ok (accumulate st.1 (Action.mk a.name (keyAttrTable a.name) a.attrs st.2)
        ((parseNatCh ((attrsGet a.attrs "pkg.size").getD "0").data).getD 0), st.2 + 1) := by
  obtain ⟨h1, h2, h3, h4, h5, h6, h7, h8⟩ := wf_fields ha
  obtain ⟨c0, cs0, hname⟩ : ∃ c0 cs0, a.name.data = c0 :: cs0 := by
    cases hd : a.name.data with
    | nil => exact absurd hd h1
    | cons c cs => exact ⟨c, cs, rfl⟩
  obtain ⟨rest0, hser⟩ : ∃ rest0, a.serialize = c0 :: rest0 := by
    rw [Action.serialize, hname]
    cases a.attrs.map serAttr with
    | nil => exact ⟨cs0, rfl⟩
    | cons t ts => exact ⟨cs0 ++ ' ' :: sepJoin ' ' (t :: ts), rfl⟩
  have hc0ws : c0.isWhitespace = false :=
    cleanChars_mem h2 c0 (by rw [hname]; exact List.mem_cons_self _ _)
  have hl : a.serialize.dropWhile Char.isWhitespace = c0 :: rest0 := by
    rw [hser]
    rw [List.dropWhile_cons_of_neg (by simp [hc0ws])]
  have hc0hash : ¬ c0 = '#' := by
    intro he
    apply h3
    rw [hname, he]
    rfl
  have hszsome : ∃ n, parseNatCh ((attrsGet a.attrs "pkg.size").getD "0").data = some n := by
    cases hps : attrsGet a.attrs "pkg.size" with
    | none => exact ⟨0, rfl⟩
    | some s =>
      rw [hps] at h6
      have h6b : (parseNatCh s.data).isSome = true := by simpa using h6
      rcases Option.isSome_iff_exists.mp h6b with ⟨n, hn⟩
      exact ⟨n, hn⟩
  rcases hszsome with ⟨n, hn⟩
  have hfs : fromstr st.2 (c0 :: rest0)
      = Except.ok (Action.mk a.name (keyAttrTable a.name) a.attrs st.2) := by
    rw [← hser]
    exact fromstr_serialize ha st.2
  simp only [processLine, hl, if_neg hc0hash, hfs,
    @authorityFix_wf (Action.mk a.name (keyAttrTable a.name) a.attrs st.2) h8,
    @stripPath_wf (Action.mk a.name (keyAttrTable a.name) a.attrs st.2) h7,
    hn, Option.getD_some]
  rfl

theorem foldlM_processLines : ∀ (as : List Action), (∀ a ∈ as, a.wf = true) →
    ∀ st : Manifest × Nat,
      ∃ fin : Manifest × Nat,
        (as.map Action.serialize).foldlM (processLine []) st = Except.ok fin ∧
          fin.1.actions.map actionContent
            = st.1.actions.map actionContent ++ as.map actionContent := by
  intro as
  induction as with
  | nil =>
    intro _ st
    exact ⟨st, rfl, by simp⟩
  | cons a as ih =>
    intro h st
    obtain ⟨fin, hfold, hcontent⟩ := ih (fun b hb => h b (List.mem_cons_of_mem _ hb))
      ((accumulate st.1 (Action.mk a.name (keyAttrTable a.name) a.attrs st.2)
        ((parseNatCh ((attrsGet a.attrs "pkg.size").getD "0").data).getD 0), st.2 + 1))
    refine ⟨fin, ?_, ?_⟩
    · rw [List.map_cons, List.foldlM_cons, processLine_serialize (h a (List.mem_cons_self _ _)) st]
      exact hfold
    · rw [hcontent]
      have hacts : (accumulate st.1 (Action.mk a.name (keyAttrTable a.name) a.attrs st.2)
          ((parseNatCh ((attrsGet a.attrs "pkg.size").getD "0").data).getD 0)).actions
          = st.1.actions ++ [Action.mk a.name (keyAttrTable a.name) a.attrs st.2] := rfl
      rw [hacts, List.map_append, List.append_assoc]
      rfl

/-- C7 (amended): parsing the raw-text serialization of a manifest whose
fmri is unset and whose actions are parse-normalized reproduces the action
sequence up to content equality, in the same order.  (When the fmri is set,
the serializer emits an identity line that re-parses as an extra leading
attribute-set action, so the claim fails in that case.) -/
theorem set_content_roundtrip (m : Manifest) (h1 : m.fmri = none)
    (h2 : ∀ a ∈ m.actions, a.wf = true) :
    (Manifest.empty.set_content m.tostr_unsorted []).map
        (fun mm => mm.actions.map actionContent)
      = Except.ok (m.actions.map actionContent) := by
  have hlines : splitLinesCh (m.tostr_unsorted).data = m.actions.map Action.serialize := by
    have hdata : (m.tostr_unsorted).data = joinLines (m.actions.map Action.serialize) := by
      rw [Manifest.tostr_unsorted, h1]
      rfl
    rw [hdata]
    apply splitLinesCh_joinLines
    intro l hl c hc
    rcases List.mem_map.mp hl with ⟨a, hamem, he⟩
    subst he
    obtain ⟨_, h2n, _, h4n, _⟩ := wf_fields (h2 a hamem)
    rw [Action.serialize] at hc
    rcases mem_sepJoin hc with hc | ⟨t, ht, hct⟩
    · rw [hc]; decide
    · rcases List.mem_cons.mp ht with ht | ht
      · subst ht
        exact cleanChars_ne_newline h2n c hct
      · rcases List.mem_map.mp ht with ⟨p, hp, hep⟩
        subst hep
        obtain ⟨_, hkc, _, hvc⟩ := wfAttr_fields (h4n p hp)
        rw [serAttr] at hct
        rcases List.mem_append.mp hct with hct | hct
        · exact cleanChars_ne_newline hkc c hct
        · rcases List.mem_cons.mp hct with hct | hct
          · rw [hct]; decide
          · exact cleanChars_ne_newline hvc c hct
  obtain ⟨fin, hfold, hcontent⟩ := foldlM_processLines m.actions h2 (Manifest.empty, 0)
  have hsc : Manifest.empty.set_content m.tostr_unsorted []
      = ((m.actions.map Action.serialize).foldlM (processLine [])
          (Manifest.empty, 0)).map fun p => p.1 := by
    rw [Manifest.set_content, hlines]
    rfl
  rw [hsc, hfold]
  show Except.ok (fin.1.actions.map actionContent) = Except.ok (m.actions.map actionContent)
  rw [hcontent]
  simp [Manifest.empty]

/-- C7 counterexample: a manifest whose fmri is set round-trips to an action
sequence with an extra leading attribute-set action (the re-parsed identity
line), so the sequences are not pairwise content-equal. -/
theorem roundtrip_fmri_cex :
    (Manifest.empty.set_content mFmri.tostr_unsorted []).map
        (fun mm => mm.actions.map actionContent)
      ≠ Except.ok (mFmri.actions.map actionContent) := by
  decide

/-- C7 witness: the amended round trip applied to a concrete two-action
manifest with unset fmri. -/
theorem set_content_roundtrip_witness :
    mRound.fmri = none ∧ (∀ a ∈ mRound.actions, a.wf = true) ∧
      (Manifest.empty.set_content mRound.tostr_unsorted []).map
          (fun mm => mm.actions.map actionContent)
        = Except.ok (mRound.actions.map actionContent) :=
  ⟨rfl, by decide, set_content_roundtrip mRound rfl (by decide)⟩

end Pkg5
